import Mathlib

/-!
Verification development for a pair of game-tree searchers:
a depth-limited alpha-beta searcher with a static evaluation function
(`template_alphabeta.py` and `python/template_contest.py`) and a UCT
Monte-Carlo tree searcher (`template_uct.py`).  The game rules engine
(states, legal actions, successor states, terminality, utility) is an
external collaborator; it is modelled as an abstract record of the four
operations the searchers consume, exactly as the specification's
"Game Interface" section describes.

Python exceptions are modelled with `Option`/`Except`: a function that
raises maps to `none` / `.error`, a function that returns normally maps
to `some` / `.ok`.  Python `float("inf")` / `float("-inf")` appearing as
search bounds are modelled with `WithBot (WithTop ℚ)`; scores themselves
are rationals (the Python code only adds, subtracts, multiplies and
compares scores, so exact rational arithmetic is a faithful model of the
float arithmetic actually exercised by the claims).
-/

namespace S2P

/-- Search values: rationals extended with the `float("-inf")` and
`float("inf")` bounds the Python searchers use. -/
abbrev EVal := WithBot (WithTop ℚ)

/-- Embeds a finite rational score into the extended value order. -/
def toEVal (q : ℚ) : EVal := ((q : WithTop ℚ) : WithBot (WithTop ℚ))

/-- The value `float("inf")` as an extended value. -/
def evTop : EVal := ((⊤ : WithTop ℚ) : WithBot (WithTop ℚ))

/-- The game interface (external collaborator): legal actions, successor
states, terminality test, utility, and the `to_move` attribute that the
rules engine stores on every state. -/
structure Game (S A : Type) where
  actions : S → List A
  result : S → A → S
  is_terminal : S → Bool
  utility : S → Nat → ℚ
  to_move : S → Nat

/-- A Shobu-like state as the alpha-beta agents see it: `board` is the
list of home boards, each home board holding the two players' piece
collections (`home_board[0]` is player 0's pieces); `to_move` is the
player about to move and `actions` the precomputed legal-action list
stored on the state (`state.actions` in `template_contest.py`). -/
structure ShobuLike (A : Type) where
  board : List (List (List Nat))
  to_move : Nat
  actions : List A

/-! ### `template_alphabeta.py` : `AlphaBetaAgent` -/

/-- Python `len()` applied to the first component of an `enumerate`
pair: that component is the running index, an `int`, and `len(int)`
raises `TypeError`.  `AlphaBetaAgent.nmb_of_pieces` iterates
`for home_board in enumerate(board)`, so `home_board[0]` is this index. -/
def lenOfIndex (_i : Nat) : Option Nat := none

/-- Python `len()` applied to the second component of an `enumerate`
pair over the board, i.e. to an actual home board (a list). -/
def lenOfHomeBoard (hb : List (List Nat)) : Option Nat := some hb.length

/-- Embeds `AlphaBetaAgent.nmb_of_pieces`: iterate over
`enumerate(board)` accumulating `len(home_board[0])` into
`pieces_player` and `len(home_board[1])` into `pieces_opponent`.
Because `home_board` is the `(index, board element)` pair produced by
`enumerate`, `len(home_board[0])` is `len` of an `int` and raises
`TypeError` (modelled `none`) on the first home board. -/
def nmb_of_pieces (board : List (List (List Nat))) : Option (Nat × Nat) :=
  board.enum.foldlM
    (fun (acc : Nat × Nat) hb => do
      let p ← lenOfIndex hb.1
      let o ← lenOfHomeBoard hb.2
      pure (acc.1 + p, acc.2 + o))
    (0, 0)

/-- Embeds `AlphaBetaAgent.eval`: look up the piece counts via
`nmb_of_pieces` (whose `TypeError` propagates) and return
`pieces_opponent - pieces_player` when the player to move is the agent,
`pieces_player - pieces_opponent` otherwise. -/
def tEval (player : Nat) (s : ShobuLike A) : Option ℚ := do
  let pcs ← nmb_of_pieces s.board
  if s.to_move = player then
    pure ((pcs.2 : ℚ) - (pcs.1 : ℚ))
  else
    pure ((pcs.1 : ℚ) - (pcs.2 : ℚ))

/-- Leaf return of the template searcher: `(self.eval(state), None)`,
with the evaluation's `TypeError` propagating. -/
def tLeaf (ev : S → Option ℚ) (s : S) : Option (EVal × Option A) :=
  (ev s).map (fun e => (toEVal e, none))

/-- Embeds the `for action in self.actions():` loop shared by the
template's `max_value` (with `gt := true`) and `min_value`
(`gt := false`).  Faithful to the source: the body calls `call e` with
`e = self.eval(state)` (evaluated each iteration, its `TypeError`
propagating), the accumulator starts at `alpha` resp. `beta`, the
incumbent is replaced only on strict improvement, and no pruning break
exists.  `call` is the mutually recursive `min_value` / `max_value`
applied exactly as the source applies it. -/
def tLoop (call : ℚ → Option (EVal × Option A)) (ev : S → Option ℚ) (s : S)
    (gt : Bool) : List A → EVal → Option A → Option (EVal × Option A)
  | [], v, move => some (v, move)
  | a :: rest, v, move => do
    let e ← ev s
    let p ← call e
    if (if gt then v < p.1 else p.1 < v) then
      tLoop call ev s gt rest p.1 (some a)
    else
      tLoop call ev s gt rest v move

/-- Embeds `AlphaBetaAgent.max_value` / `min_value` as one function
switching on `isMax` (the Python pair is mutually recursive; the `fuel`
argument is `max_depth - depth`, so `fuel = 0` is exactly the
`self.max_depth <= depth` arm of `is_cutoff`, and each recursive call at
`depth + 1` runs at `fuel - 1`).  Faithful to the source's bugs:
`max_value` calls `min_value(state, alpha, self.eval(state), depth+1)`
on the unchanged `state` with `beta` replaced by `self.eval(state)`,
`min_value` calls `max_value(state, self.eval(state), beta, depth+1)`,
neither updates `alpha`/`beta` nor breaks out of the loop, and the
running value starts at `alpha` (resp. `beta`), not at minus (plus)
infinity.  The undefined `self.actions()` call (the `Agent` base class
has no such method) is modelled generously as the legal actions of the
state being searched. -/
def tMM (g : Game (ShobuLike A) A) (ev : ShobuLike A → Option ℚ)
    (fuel : Nat) : Bool → ShobuLike A → EVal → EVal → Option (EVal × Option A) :=
  Nat.rec (motive := fun _ => Bool → ShobuLike A → EVal → EVal → Option (EVal × Option A))
    (fun _ s _ _ => tLeaf ev s)
    (fun _ prev isMax s alpha beta =>
      if g.is_terminal s = true then tLeaf ev s
      else if isMax then
        tLoop (fun e => prev false s alpha (toEVal e)) ev s true (g.actions s) alpha none
      else
        tLoop (fun e => prev true s (toEVal e) beta) ev s false (g.actions s) beta none)
    fuel

/-- Embeds `AlphaBetaAgent.alpha_beta_search`, generalized over the
evaluation function so the agent's own evaluation and a repaired one can
be compared: `max_value(state, -inf, +inf, 0)` and return the action.
The outer `none` is an uncaught Python exception; `some none` is a
normal return of the action `None`. -/
def tSearchEv (g : Game (ShobuLike A) A) (ev : ShobuLike A → Option ℚ)
    (max_depth : Nat) (s : ShobuLike A) : Option (Option A) :=
  (tMM g ev max_depth true s ⊥ evTop).map (fun r => r.2)

/-- Embeds `AlphaBetaAgent.play` = `alpha_beta_search` with the agent's
own evaluation function. -/
def tSearch (g : Game (ShobuLike A) A) (player max_depth : Nat)
    (s : ShobuLike A) : Option (Option A) :=
  tSearchEv g (tEval player) max_depth s

/-! ### Unpruned depth-limited minimax

Modelled from the spec: the reference point of the pruning-correctness
property, "the action chosen by an unpruned full minimax over the same
depth, on the same state".  Same cutoff rule and same strict-improvement
first-argmax tie-break as the spec's alpha-beta description, but every
successor is explored with no `alpha`/`beta` bounds. -/

/-- Modelled from the spec: the action loop of unpruned minimax.  For
each legal action, recurse into the opposite player's value on the
successor state and replace the incumbent only on strict improvement. -/
def mmLoop (call : S → Option (EVal × Option A)) (g : Game S A) (s : S)
    (gt : Bool) : List A → EVal → Option A → Option (EVal × Option A)
  | [], v, move => some (v, move)
  | a :: rest, v, move => do
    let p ← call (g.result s a)
    if (if gt then v < p.1 else p.1 < v) then
      mmLoop call g s gt rest p.1 (some a)
    else
      mmLoop call g s gt rest v move

/-- Modelled from the spec: unpruned full depth-limited minimax
(`fuel = max_depth - depth`); at a cutoff (depth exhausted or terminal
state) return `(evaluate(state), no_action)`, otherwise maximize
(resp. minimize) the recursive value over all successor states. -/
def mmMM (g : Game S A) (ev : S → Option ℚ) (fuel : Nat) :
    Bool → S → Option (EVal × Option A) :=
  Nat.rec (motive := fun _ => Bool → S → Option (EVal × Option A))
    (fun _ s => tLeaf ev s)
    (fun _ prev isMax s =>
      if g.is_terminal s = true then tLeaf ev s
      else if isMax then
        mmLoop (fun s' => prev false s') g s true (g.actions s) ⊥ none
      else
        mmLoop (fun s' => prev true s') g s false (g.actions s) evTop none)
    fuel

/-- Modelled from the spec: the top-level unpruned minimax choice,
returning only the action. -/
def minimaxSearch (g : Game S A) (ev : S → Option ℚ) (max_depth : Nat)
    (s : S) : Option (Option A) :=
  (mmMM g ev max_depth true s).map (fun r => r.2)

/-! ### `python/template_contest.py` : `AI` -/

/-- Python `min(n, acc)` where the accumulator starts at `float("inf")`
(modelled `none`): the first comparison yields `n`, later ones the
ordinary minimum. -/
def pyMin (n : Nat) : Option Nat → Nat
  | none => n
  | some m => min n m

/-- Embeds `AI.eval`: fold over `enumerate(board)` taking the minimum of
`len(home_board[self.player])` into `pieces_player` (starting from
`float("inf")`, modelled `⊤ : WithTop ℕ`) and of
`len(home_board[1 - self.player])` into `pieces_opponent`, then return
`self.C * pieces_player - pieces_opponent`.  Indexing a home board out
of range would raise (`none`); an empty board leaves both minima
infinite, making the result the float `NaN`, also modelled `none`. -/
def cEval (player C : Nat) (s : ShobuLike A) : Option ℚ := do
  let mins ← s.board.foldlM
    (fun (acc : Option Nat × Option Nat) hb => do
      let lp ← hb.get? player
      let lo ← hb.get? (1 - player)
      pure (some (pyMin lp.length acc.1), some (pyMin lo.length acc.2)))
    (none, none)
  match mins.1, mins.2 with
  | some pp, some po => pure ((C : ℚ) * (pp : ℚ) - (po : ℚ))
  | _, _ => none

/-- Leaf return of the contest searcher: evaluate, then add the
multiplicative noise `random.random() * 0.01 * score` (the `ctr`-th draw
of the injected noise stream), returning `(score, None)` and the
advanced draw counter. -/
def cLeaf (player C : Nat) (noise : Nat → ℚ) (s : ShobuLike A) (ctr : Nat) :
    Option (EVal × Option A × Nat) := do
  let e ← cEval player C s
  pure (toEVal (e + noise ctr * (1 / 100) * e), none, ctr + 1)

/-- Embeds the action loop of `AI.max_value`: recurse into `min_value`
on the successor state, replace the incumbent and raise
`alpha = max(alpha, v)` on strictly greater value, and return
immediately once `v >= beta`. -/
def cMaxLoop (call : ShobuLike A → EVal → EVal → Nat → Option (EVal × Option A × Nat))
    (g : Game (ShobuLike A) A) (s : ShobuLike A) :
    List A → EVal → Option A → EVal → EVal → Nat → Option (EVal × Option A × Nat)
  | [], v, move, _, _, ctr => some (v, move, ctr)
  | a :: rest, v, move, alpha, beta, ctr => do
    let r ← call (g.result s a) alpha beta ctr
    let (v', move', alpha') :=
      if v < r.1 then (r.1, some a, max alpha r.1) else (v, move, alpha)
    if beta ≤ v' then some (v', move', r.2.2)
    else cMaxLoop call g s rest v' move' alpha' beta r.2.2

/-- Embeds the action loop of `AI.min_value`: recurse into `max_value`
on the successor state, replace the incumbent and lower
`beta = min(beta, v)` on strictly smaller value, and return immediately
once `v <= alpha`. -/
def cMinLoop (call : ShobuLike A → EVal → EVal → Nat → Option (EVal × Option A × Nat))
    (g : Game (ShobuLike A) A) (s : ShobuLike A) :
    List A → EVal → Option A → EVal → EVal → Nat → Option (EVal × Option A × Nat)
  | [], v, move, _, _, ctr => some (v, move, ctr)
  | a :: rest, v, move, alpha, beta, ctr => do
    let r ← call (g.result s a) alpha beta ctr
    let (v', move', beta') :=
      if r.1 < v then (r.1, some a, min beta r.1) else (v, move, beta)
    if v' ≤ alpha then some (v', move', r.2.2)
    else cMinLoop call g s rest v' move' alpha beta' r.2.2

/-- Embeds `AI.max_value` / `AI.min_value` as one function switching on
`isMax` (the Python pair is mutually recursive; `fuel = max_depth -
depth`, so `fuel = 0` is exactly the `depth >= self.max_depth` arm of
`AI.is_cutoff`).  The loop iterates `state.actions`, the legal-action
list stored on the state; the noise-draw counter is threaded through in
Python evaluation order. -/
def cMM (g : Game (ShobuLike A) A) (player C : Nat) (noise : Nat → ℚ)
    (fuel : Nat) :
    Bool → ShobuLike A → EVal → EVal → Nat → Option (EVal × Option A × Nat) :=
  Nat.rec (motive := fun _ => Bool → ShobuLike A → EVal → EVal → Nat → Option (EVal × Option A × Nat))
    (fun _ s _ _ ctr => cLeaf player C noise s ctr)
    (fun _ prev isMax s alpha beta ctr =>
      if g.is_terminal s = true then cLeaf player C noise s ctr
      else if isMax then
        cMaxLoop (fun s' a' b' c' => prev false s' a' b' c') g s s.actions ⊥ none alpha beta ctr
      else
        cMinLoop (fun s' a' b' c' => prev true s' a' b' c') g s s.actions evTop none alpha beta ctr)
    fuel

/-- The contest agent's hardcoded search depth (`self.max_depth = 2`). -/
def contestMaxDepth : Nat := 2

/-- Embeds `AI.play` = `AI.alpha_beta_search`:
`max_value(state, -inf, +inf, 0)` at the hardcoded depth, returning the
action (`some none` is a normal return of `None`). -/
def cSearch (g : Game (ShobuLike A) A) (player C : Nat) (noise : Nat → ℚ)
    (s : ShobuLike A) : Option (Option A) :=
  (cMM g player C noise contestMaxDepth true s ⊥ evTop 0).map (fun r => r.2.1)

/-! ### `template_uct.py` : `Node` and `UCTAgent`

The mutable `Node` tree (fields `state`, `U`, `N`, `children`, plus the
`parent` back-reference) is embedded as a purely functional tree whose
nodes carry the same `state`/`U`/`N`/`children` data; a node is
addressed by its path of child indices from the root, and the `parent`
back-reference is recovered by dropping the last index of a path, so the
upward walk of `back_propagate` becomes a walk along the prefixes of the
expanded node's path.  `children` is a Python `dict` from child node to
action in insertion order, embedded as the list of `(action, child)`
pairs in that order.  `random.choice` calls receive an injected index
stream (the spec requires the random source to be injectable), choosing
element `pick % length` of the list chosen from. -/

/-- A node of the UCT tree: the represented game state, the visit count
`N`, the accumulated reward `U`, and the ordered children with the
actions that produced them. -/
inductive MCTree (S A : Type) : Type where
  | node : S → Nat → ℚ → List (A × MCTree S A) → MCTree S A

/-- The game state stored at a node. -/
def MCTree.state : MCTree S A → S
  | .node s _ _ _ => s

/-- The visit count `N` of a node. -/
def MCTree.visits : MCTree S A → Nat
  | .node _ n _ _ => n

/-- The accumulated reward `U` of a node. -/
def MCTree.reward : MCTree S A → ℚ
  | .node _ _ u _ => u

/-- The ordered children of a node with their generating actions. -/
def MCTree.children : MCTree S A → List (A × MCTree S A)
  | .node _ _ _ cs => cs

/-- Eager child generation, as in `UCTAgent.uct` and `UCTAgent.expand`:
one fresh child per legal action, in the order the game interface
produces the actions, each with `U = 0`, `N = 0` and no children. -/
def mkChildren (g : Game S A) (s : S) : List (A × MCTree S A) :=
  (g.actions s).map (fun a => (a, .node (g.result s a) 0 0 []))

/-- The fresh root built at the start of `UCTAgent.uct`: a node wrapping
the given state whose children are generated eagerly. -/
def initTree (g : Game S A) (s : S) : MCTree S A :=
  .node s 0 0 (mkChildren g s)

/-- The node of a tree at a path of child indices (`some` exactly when
every index is in range). -/
def getNode : MCTree S A → List Nat → Option (MCTree S A)
  | t, [] => some t
  | t, i :: p =>
    match t.children[i]? with
    | some ac => getNode ac.2 p
    | none => none

/-- Rebuilds a tree with the node at the given path transformed by `f`
(out-of-range paths leave the tree unchanged; the searcher only ever
uses valid paths, which come from live node references in Python). -/
def updateAt : MCTree S A → List Nat → (MCTree S A → MCTree S A) → MCTree S A
  | t, [], f => f t
  | t, i :: p, f =>
    match t.children[i]? with
    | some ac =>
      .node t.state t.visits t.reward (t.children.set i (ac.1, updateAt ac.2 p f))
    | none => t

/-- Embeds `UCTAgent.UCB1`: infinite for an unvisited node, otherwise
`U / N` plus the exploration term.  The exploration term
`sqrt(2) * sqrt(log(parent.N) / N)` is an irrational real of the two
visit counts; it is abstracted as the injected function `sq` of
`(parent.N, N)`, which every theorem below quantifies over. -/
def UCB1 (sq : Nat → Nat → ℚ) (parentN : Nat) (n : Nat) (u : ℚ) : WithTop ℚ :=
  if n = 0 then ⊤ else ((u / (n : ℚ) + sq parentN n : ℚ) : WithTop ℚ)

/-- Embeds the argmax loop of `UCTAgent.select`: scan the children
keeping the first strictly-greater UCB1 score (starting from
`float("-inf")`), breaking as soon as the running maximum is infinite.
Returns the running maximum and the index of the best child (`none` if
the loop never assigned `best_child`, which in Python leaves the
variable unbound and raises on use). -/
def argmaxLoop (sq : Nat → Nat → ℚ) (parentN : Nat) :
    List (A × MCTree S A) → Nat → WithBot (WithTop ℚ) → Option Nat →
    WithBot (WithTop ℚ) × Option Nat
  | [], _, mv, best => (mv, best)
  | ac :: rest, i, mv, best =>
    let u : WithBot (WithTop ℚ) := (UCB1 sq parentN ac.2.visits ac.2.reward : WithTop ℚ)
    if mv < u then
      if u = ((⊤ : WithTop ℚ) : WithBot (WithTop ℚ)) then (u, some i)
      else argmaxLoop sq parentN rest (i + 1) u (some i)
    else argmaxLoop sq parentN rest (i + 1) mv best

/-- Embeds `UCTAgent.select`, returning the path of the selected leaf:
stop (returning the current node) when some child is unvisited or the
state is terminal; otherwise descend into the child with the best UCB1
score — with the source's dead `best_child.parent` branch (taken when
the best score is infinite, impossible here since an infinite score
means an unvisited child) and its `NameError` on a childless
non-terminal node (`none`).  Python's recursion terminates because the
tree is finite; `fuel` makes that structural, and `UCTAgent.uct` below
passes fuel exceeding any reachable tree height, which the no-crash
theorems prove is never exhausted. -/
def selectF (g : Game S A) (sq : Nat → Nat → ℚ) : Nat → MCTree S A → Option (List Nat)
  | 0, _ => none
  | fuel + 1, .node s n _ cs =>
    if cs.any (fun ac => ac.2.visits = 0) || g.is_terminal s then some []
    else
      match argmaxLoop sq n cs 0 ⊥ none with
      | (_, none) => none
      | (mv, some i) =>
        if mv = ((⊤ : WithTop ℚ) : WithBot (WithTop ℚ)) then some []
        else
          match cs[i]? with
          | some ac => (selectF g sq fuel ac.2).map (fun p => i :: p)
          | none => none

/-- The indices of the children with no simulation yet
(`children_without_simulation` in `UCTAgent.expand`). -/
def zeroVisitIdxs (cs : List (A × MCTree S A)) : List Nat :=
  (List.range cs.length).filter (fun i =>
    match cs[i]? with
    | some ac => ac.2.visits = 0
    | none => false)

/-- The population step of `UCTAgent.expand`:
`choosen_child.children = { ... for action in actions(choosen_child.state) }`,
replacing the chosen child's (empty) children with the eagerly generated
ones while keeping its state and statistics. -/
def popFn (g : Game S A) : MCTree S A → MCTree S A
  | .node s n u _ => .node s n u (mkChildren g s)

/-- Embeds `UCTAgent.expand` at the node addressed by `p`: a terminal
node expands to itself; otherwise choose (via the injected pick) one
never-visited child, eagerly generate that child's own children, and
return the chosen child's path together with the updated tree.
`random.choice` of an empty candidate list raises (`none`). -/
def expand (g : Game S A) (pick : Nat) (t : MCTree S A) (p : List Nat) :
    Option (List Nat × MCTree S A) := do
  let nd ← getNode t p
  if g.is_terminal nd.state then
    pure (p, t)
  else
    let zs := zeroVisitIdxs nd.children
    match zs[pick % zs.length]? with
    | none => none
    | some j => pure (p ++ [j], updateAt t (p ++ [j]) (popFn g))

/-- The random playout loop of `UCTAgent.simulate`: starting from the
given state, while fewer than the given number of steps have been played
and the state is non-terminal, play the pick-chosen legal action
(`random.choice` of an empty action list raises, `none`).  `steps`
counts down from the 500-ply safety cap; `i` is the step index feeding
the pick stream. -/
def rolloutAux (g : Game S A) (pick : Nat → Nat) : Nat → Nat → S → Option S
  | 0, _, s => some s
  | steps + 1, i, s =>
    if g.is_terminal s then some s
    else
      match (g.actions s)[pick i % (g.actions s).length]? with
      | some a => rolloutAux g pick steps (i + 1) (g.result s a)
      | none => none

/-- Embeds `UCTAgent.simulate`: random playout from the given state
until a terminal state or the 500-step safety cap, then the rules
engine's utility of the reached state for player `1 - state.to_move`,
the opponent of the player about to move in the original state. -/
def simulate (g : Game S A) (pick : Nat → Nat) (s : S) : Option ℚ :=
  (rolloutAux g pick 500 0 s).map (fun fs => g.utility fs (1 - g.to_move s))

/-- The reward seen `k` levels above the expanded node: `result` is
replaced by `1 - result` at each step of the upward walk of
`UCTAgent.back_propagate`. -/
def altReward (r : ℚ) (k : Nat) : ℚ := if k % 2 = 0 then r else 1 - r

/-- The upward walk of `UCTAgent.back_propagate`, written top-down over
the expanded node's path: every node on the path (the expanded node and
all its ancestors up to the root inclusive) gets `N + 1` and
`U + altReward r d` where `d` is its distance above the expanded node —
exactly the `result = 1 - result` alternation of the Python `while`
walk along `parent` links. -/
def backPropAux (r : ℚ) : MCTree S A → List Nat → MCTree S A
  | .node s n u cs, [] => .node s (n + 1) (u + altReward r 0) cs
  | .node s n u cs, i :: p =>
    .node s (n + 1) (u + altReward r (p.length + 1))
      (match cs[i]? with
       | some ac => cs.set i (ac.1, backPropAux r ac.2 p)
       | none => cs)

/-- Embeds `UCTAgent.back_propagate`: clamp a negative result to zero
(`result = max(0, result)`) before the walk begins, then update every
node from the expanded node up to the root. -/
def back_propagate (r : ℚ) (t : MCTree S A) (p : List Nat) : MCTree S A :=
  backPropAux (max 0 r) t p

/-- One iteration of the `UCTAgent.uct` loop: select a leaf, expand it,
simulate from the expanded node's state, backpropagate.  The returned
flag instruments (without affecting any computed value) whether this
iteration's expansion hit an already-terminal leaf and therefore created
no new node — the quantity the visit-count accounting claim is about. -/
def uctIter (g : Game S A) (sq : Nat → Nat → ℚ) (pickE : Nat)
    (pickS : Nat → Nat) (selFuel : Nat) (t : MCTree S A) :
    Option (MCTree S A × Bool) := do
  let p ← selectF g sq selFuel t
  let leaf ← getNode t p
  let pt ← expand g pickE t p
  let child ← getNode pt.2 pt.1
  let res ← simulate g pickS child.state
  pure (back_propagate res pt.2 pt.1, g.is_terminal leaf.state)

/-- The `for _ in range(self.iteration)` loop of `UCTAgent.uct`,
accumulating the count of iterations whose expansion hit an
already-terminal leaf.  `idx` feeds the per-iteration sections of the
injected pick streams. -/
def uctLoop (g : Game S A) (sq : Nat → Nat → ℚ) (pickE : Nat → Nat)
    (pickS : Nat → Nat → Nat) (selFuel : Nat) :
    Nat → Nat → MCTree S A → Option (MCTree S A × Nat)
  | 0, _, t => some (t, 0)
  | k + 1, idx, t => do
    let r ← uctIter g sq (pickE idx) (pickS idx) selFuel t
    let rest ← uctLoop g sq pickE pickS selFuel k (idx + 1) r.1
    pure (rest.1, rest.2 + (if r.2 then 1 else 0))

/-- Embeds `max(root.children, key=lambda n: n.N)` followed by
`root.children.get(max_state)`: the first child with the maximal visit
count, paired with its action; `max()` of an empty mapping raises
`ValueError` (`none`). -/
def maxByN : List (A × MCTree S A) → Option (A × MCTree S A)
  | [] => none
  | x :: xs => some (xs.foldl (fun b y => if b.2.visits < y.2.visits then y else b) x)

/-- Embeds `UCTAgent.uct` (and so `UCTAgent.play`): build a fresh root
with eagerly generated children, run the select/expand/simulate/
backpropagate loop `iteration` times, and return the action of the
most-visited root child.  `.error` is an uncaught Python exception;
`iteration + 2` exceeds every reachable tree height (proved below), so
the select fuel is never exhausted. -/
def uct (g : Game S A) (sq : Nat → Nat → ℚ) (pickE : Nat → Nat)
    (pickS : Nat → Nat → Nat) (iteration : Nat) (s : S) : Except String A :=
  match uctLoop g sq pickE pickS (iteration + 2) iteration 0 (initTree g s) with
  | none => .error "exception during a uct iteration"
  | some r =>
    match maxByN r.1.children with
    | none => .error "ValueError: max() arg is an empty sequence"
    | some best => .ok best.1

/-- The total visit count over the direct children of the root. -/
def sumRootN (t : MCTree S A) : Nat :=
  (t.children.map (fun ac => ac.2.visits)).sum

/-! ### Specification-side predicates used by the theorems -/

/-- The game-interface contract the spec states for `actions`: a
non-terminal state has at least one legal action. -/
def Contract (g : Game S A) : Prop :=
  ∀ s, g.is_terminal s = false → g.actions s ≠ []

/-- A node whose children mapping covers exactly the legal actions of
its state, in order — the state a node is in right after its children
have been eagerly generated. -/
def ChildrenOK (g : Game S A) (t : MCTree S A) : Prop :=
  t.children.map Prod.fst = g.actions t.state

/-- Holds of every node of a tree (the node itself and, recursively,
all of its descendants). -/
inductive AllNodes (P : MCTree S A → Prop) : MCTree S A → Prop where
  | mk (s : S) (n : Nat) (u : ℚ) (cs : List (A × MCTree S A)) :
      P (.node s n u cs) → (∀ ac ∈ cs, AllNodes P ac.2) →
      AllNodes P (.node s n u cs)

/-- Bounds the height of a tree: every path of child indices from the
root has fewer than `h` steps. -/
inductive HeightLe : MCTree S A → Nat → Prop where
  | mk (s : S) (n : Nat) (u : ℚ) (cs : List (A × MCTree S A)) (k : Nat) :
      (∀ ac ∈ cs, HeightLe ac.2 k) → HeightLe (.node s n u cs) (k + 1)

/-- The structural invariant of the UCT tree: every visited
(`N >= 1`) non-terminal node has had its children eagerly generated. -/
def TreeInv (g : Game S A) (t : MCTree S A) : Prop :=
  AllNodes (fun x => 1 ≤ x.visits → g.is_terminal x.state = false → ChildrenOK g x) t

/-- The per-node statistics invariant of the claims: the accumulated
reward lies in `[0, visit_count]` and an unvisited node still has its
initial zero reward (it has never been backpropagated into, since every
backpropagation that touches a node increments its visit count). -/
def StatsP (t : MCTree S A) : Prop :=
  0 ≤ t.reward ∧ t.reward ≤ (t.visits : ℚ) ∧ (t.visits = 0 → t.reward = 0)

/-- The statistics invariant over the whole tree. -/
def StatsOK (t : MCTree S A) : Prop :=
  AllNodes StatsP t

/-- Every node along a path (every prefix of it, root and endpoint
inclusive) is terminal or has had its children generated — what
backpropagation preserves the structural invariant through. -/
def PathOK (g : Game S A) (t : MCTree S A) (p : List Nat) : Prop :=
  ∀ q rest x, p = q ++ rest → getNode t q = some x →
    g.is_terminal x.state = true ∨ ChildrenOK g x

/-- Reachability by legal play: `PlayRelN g n s u` holds when `u`
arises from `s` by a sequence of exactly `n` legal actions. -/
inductive PlayRelN (g : Game S A) : Nat → S → S → Prop where
  | refl (s : S) : PlayRelN g 0 s s
  | step (n : Nat) (s : S) (a : A) (u : S) :
      a ∈ g.actions s → PlayRelN g n (g.result s a) u → PlayRelN g (n + 1) s u

/-! ### Concrete games used by the counterexamples and witnesses -/

/-- A state in which the first action leads nowhere good: used by the
alpha-beta divergence analysis (piece containers are non-empty so the
agent's own evaluation hits its `TypeError`). -/
def sBad : ShobuLike Nat := ⟨[[[1], [1]]], 0, []⟩

/-- The state the second action of `s0` leads to, given a higher score
than `sBad` by the simple evaluation below. -/
def sGood : ShobuLike Nat := ⟨[[[1], [1]]], 5, []⟩

/-- A non-terminal root with two legal actions: action `0` leads to
`sBad`, action `1` to `sGood`. -/
def s0 : ShobuLike Nat := ⟨[[[1], [1]]], 0, [0, 1]⟩

/-- A two-ply toy game over the states above: states carry their own
legal-action lists, and a state is terminal exactly when it has no
legal action. -/
def cg : Game (ShobuLike Nat) Nat where
  actions := fun s => s.actions
  result := fun _ a => if a = 0 then sBad else sGood
  is_terminal := fun s => s.actions.isEmpty
  utility := fun _ _ => 0
  to_move := fun s => s.to_move

/-- A total stand-in evaluation (the score a state's `to_move` field
happens to store), used to show the template searcher ignores lookahead
even when its evaluation does not crash. -/
def evSimple (s : ShobuLike Nat) : Option ℚ := some (s.to_move : ℚ)

/-- A terminal Shobu-like state with a non-empty board, as the rules
engine would produce at the end of a game. -/
def sT : ShobuLike Nat := ⟨[[[1], [1]], [[2], [2]]], 0, []⟩

/-- The simulate-perspective game: the non-terminal state `0` (player 0
to move) has the single action `5` leading to the terminal state `1`,
which is a win (utility 1) for player 0 and a loss (utility 0) for
player 1. -/
def cg4 : Game Nat Nat where
  actions := fun s => if s = 0 then [5] else []
  result := fun _ _ => 1
  is_terminal := fun s => s ≠ 0
  utility := fun s p => if s = 1 ∧ p = 0 then 1 else 0
  to_move := fun s => if s = 0 then 0 else 1

/-- A game in which every state is terminal with no legal action: the
terminal-root input of the UCT failure-semantics claim. -/
def cg5 : Game Nat Nat where
  actions := fun _ => []
  result := fun s _ => s
  is_terminal := fun _ => true
  utility := fun _ _ => 0
  to_move := fun _ => 0

/-- The visit-count accounting game: the non-terminal root `0` has one
action `10` leading to the terminal state `1`, so from the second UCT
iteration on, selection reaches the terminal leaf and expansion creates
no new node. -/
def cg7 : Game Nat Nat where
  actions := fun s => if s = 0 then [10] else []
  result := fun _ _ => 1
  is_terminal := fun s => s ≠ 0
  utility := fun _ p => if p = 0 then 1 else 0
  to_move := fun _ => 0

/-- A game whose non-terminal root `0` has exactly three legal actions,
each leading to a terminal state: the zero-iteration-budget input. -/
def cg10 : Game Nat Nat where
  actions := fun s => if s = 0 then [7, 8, 9] else []
  result := fun _ a => a
  is_terminal := fun s => s ≠ 0
  utility := fun _ _ => 0
  to_move := fun _ => 0

/-- A concrete three-level backpropagation input: a root whose only
child has one grandchild, all with visit count 1 and reward 0. -/
def bpTree : MCTree Nat Nat :=
  .node 0 1 0 [(4, .node 1 1 0 [(5, .node 2 1 0 [])])]

/-! ## Theorems -/

/-- The broken piece counter fails on every non-empty board: the first
loop iteration applies `len()` to the `enumerate` index. -/
theorem nmb_of_pieces_none (board : List (List (List Nat))) (h : board ≠ []) :
    nmb_of_pieces board = none := by
  cases board with
  | nil => exact absurd rfl h
  | cons b rest => simp [nmb_of_pieces, List.enum_cons, List.foldlM_cons, lenOfIndex]

/-- The template agent's evaluation fails (raises `TypeError`) on every
state with at least one home board. -/
theorem tEval_none (player : Nat) (s : ShobuLike A) (h : s.board ≠ []) :
    tEval player s = none := by
  simp [tEval, nmb_of_pieces_none s.board h]

/-- C8: the claim says `eval` is total on every state the searcher may
present to it.  The code is wrong: `AlphaBetaAgent.nmb_of_pieces`
iterates `enumerate(board)` and applies `len()` to the integer index,
raising `TypeError`, so `AlphaBetaAgent.eval` fails on every state whose
board is non-empty (every real Shobu state has four home boards).
(`AI.eval` in the contest file is unaffected.) -/
theorem claim8_eval_crashes (player : Nat) (s : ShobuLike Nat)
    (h : s.board ≠ []) :
    nmb_of_pieces s.board = none ∧ tEval player s = none :=
  ⟨nmb_of_pieces_none s.board h, tEval_none player s h⟩

/-- Witness for C8 at the concrete terminal state `sT`. -/
theorem claim8_eval_crashes_witness :
    sT.board ≠ [] ∧ nmb_of_pieces sT.board = none ∧ tEval 0 sT = none :=
  ⟨by decide, claim8_eval_crashes 0 sT (by decide)⟩

/-- C1: the claim says the alpha-beta searcher picks the same action as
unpruned depth-limited minimax and, at a non-cutoff node, recurses on
the successor state at `depth+1`, raises `alpha`, and beta-cutoffs.
The `template_alphabeta.py` code is wrong (contradicting its own
docstring, which cites the AIMA `MAX-VALUE` pseudo-code): `max_value`
recurses on the *unchanged* state with `beta` replaced by
`self.eval(state)`, never raises `alpha` and never cuts off.  On the
concrete game `cg` at the non-terminal root `s0` with depth 1: with the
agent's own evaluation the search raises `TypeError` (returns no action
at all), and with the total stand-in evaluation `evSimple` it returns
the first action `0` while unpruned minimax returns action `1`. -/
theorem claim1_alphabeta_diverges_from_minimax :
    tSearch cg 0 1 s0 = none ∧
    cg.is_terminal s0 = false ∧
    tSearchEv cg evSimple 1 s0 = some (some 0) ∧
    minimaxSearch cg evSimple 1 s0 = some (some 1) ∧
    (some 0 : Option Nat) ≠ some 1 :=
  ⟨by decide, by decide, by decide, by decide, by decide⟩

/-- C2: the claim says every searcher's top-level entry returns a
member of `actions(state)` on a non-terminal state with at least one
legal action.  `AlphaBetaAgent.play` is wrong: on the non-terminal root
`s0` (two legal actions) it raises `TypeError` inside `eval` and
returns no action. -/
theorem claim2_alphabeta_play_crashes :
    cg.is_terminal s0 = false ∧
    cg.actions s0 = [0, 1] ∧
    tSearch cg 0 1 s0 = none :=
  ⟨by decide, by decide, by decide⟩

/-- Unfolding equation of the contest searcher's value recursion at a
positive remaining depth. -/
theorem cMM_succ (g : Game (ShobuLike A) A) (player C : Nat)
    (noise : Nat → ℚ) (f : Nat) :
    cMM g player C noise (f + 1) = fun isMax s alpha beta ctr =>
      if g.is_terminal s = true then cLeaf player C noise s ctr
      else if isMax then
        cMaxLoop (fun s' a' b' c' => cMM g player C noise f false s' a' b' c')
          g s s.actions ⊥ none alpha beta ctr
      else
        cMinLoop (fun s' a' b' c' => cMM g player C noise f true s' a' b' c')
          g s s.actions evTop none alpha beta ctr := rfl

/-- C9: the claim says a terminal state passed to the alpha-beta
searcher's top-level entry yields a `None` action with no unhandled
fault.  The contest searcher (`AI.alpha_beta_search`) does exactly
that, for every noise stream; the template searcher
(`AlphaBetaAgent.alpha_beta_search`) instead raises `TypeError` inside
`eval` while computing the cutoff value, for every search depth. -/
theorem claim9_terminal_root_alphabeta (g : Game (ShobuLike Nat) Nat)
    (s : ShobuLike Nat) (maxd : Nat) (noise : Nat → ℚ) (e : ℚ)
    (hterm : g.is_terminal s = true) (hb : s.board ≠ [])
    (he : cEval 0 2 s = some e) :
    tSearch g 0 maxd s = none ∧ cSearch g 0 2 noise s = some none := by
  constructor
  · cases maxd with
    | zero => simp [tSearch, tSearchEv, tMM, tLeaf, tEval_none 0 s hb]
    | succ d => simp [tSearch, tSearchEv, tMM, tLeaf, hterm, tEval_none 0 s hb]
  · rw [cSearch, contestMaxDepth, show (2 : Nat) = 1 + 1 from rfl, cMM_succ]
    simp [hterm, cLeaf, he]

/-- Witness for C9 at the concrete terminal state `sT` of game `cg`. -/
theorem claim9_terminal_root_alphabeta_witness :
    cg.is_terminal sT = true ∧
    (tSearch cg 0 3 sT = none ∧ cSearch cg 0 2 (fun _ => 0) sT = some none) :=
  ⟨by decide,
   claim9_terminal_root_alphabeta cg sT 3 (fun _ => 0) 1 (by decide) (by decide)
     (by simp [cEval, sT, pyMin]; norm_num)⟩

/-- Replacing one child subtree (keeping its action) does not change
the action list of a children mapping. -/
theorem map_fst_set (cs : List (A × MCTree S A)) (i : Nat)
    (ac : A × MCTree S A) (x : MCTree S A) (h : cs[i]? = some ac) :
    (cs.set i (ac.1, x)).map Prod.fst = cs.map Prod.fst := by
  induction cs generalizing i with
  | nil => simp at h
  | cons c cs ih =>
    cases i with
    | zero => simp only [List.getElem?_cons_zero, Option.some.injEq] at h; subst h; simp
    | succ j => simpa using ih j (by simpa using h)

/-- Backpropagation bumps the node it starts the walk at (seen from the
top of the walked path): visit count up by one, reward up by the
alternating reward at distance `p.length`, with state and child actions
untouched. -/
theorem backPropAux_top (r : ℚ) (t : MCTree S A) (p : List Nat) :
    (backPropAux r t p).visits = t.visits + 1 ∧
    (backPropAux r t p).reward = t.reward + altReward r p.length ∧
    (backPropAux r t p).state = t.state ∧
    (backPropAux r t p).children.map Prod.fst = t.children.map Prod.fst := by
  cases t with
  | node s n u cs =>
    cases p with
    | nil => simp [backPropAux, MCTree.visits, MCTree.reward, MCTree.state, MCTree.children]
    | cons i rest =>
      refine ⟨rfl, rfl, rfl, ?_⟩
      cases h : cs[i]? with
      | none => simp [backPropAux, MCTree.children, h]
      | some ac => simp [backPropAux, MCTree.children, h, map_fst_set cs i ac _ h]

/-- Every node along the backpropagation walk — at each prefix `q` of
the full path `q ++ rest` — has its visit count incremented by one and
the alternating reward at its distance `rest.length` added. -/
theorem getNode_backPropAux (r : ℚ) (q rest : List Nat) (t nd : MCTree S A)
    (hq : getNode t q = some nd) :
    ∃ nd', getNode (backPropAux r t (q ++ rest)) q = some nd' ∧
      nd'.visits = nd.visits + 1 ∧
      nd'.reward = nd.reward + altReward r rest.length ∧
      nd'.state = nd.state ∧
      nd'.children.map Prod.fst = nd.children.map Prod.fst := by
  induction q generalizing t with
  | nil =>
    simp only [getNode, Option.some.injEq] at hq
    subst hq
    exact ⟨backPropAux r t rest, by simp [getNode], backPropAux_top r t rest⟩
  | cons j q' ih =>
    cases t with
    | node s n u cs =>
      simp only [getNode, MCTree.children] at hq
      cases h : cs[j]? with
      | none => rw [h] at hq; exact absurd hq (by simp)
      | some ac =>
        rw [h] at hq
        have hlt : j < cs.length := (List.getElem?_eq_some.1 h).1
        obtain ⟨nd', h1, h2, h3, h4, h5⟩ := ih ac.2 hq
        refine ⟨nd', ?_, h2, h3, h4, h5⟩
        simp only [List.cons_append, backPropAux, h, getNode, MCTree.children]
        rw [List.getElem?_set_eq_of_lt _ hlt]
        exact h1

/-- C3: `back_propagate`, starting at the expanded node (path
`q ++ rest` with `rest = []` there) and walking up through parents to
the root (`q = []`) inclusive, increments each visited node's visit
count by 1 and adds the alternating reward to its accumulated reward —
the raw result clamped below at zero before the walk, then flipped
`r ↦ 1 - r` at every step up, so a reward of 1 at the expanded node
contributes 0 one level up and 1 two levels up. -/
theorem claim3_back_propagate_spec (r : ℚ) (t : MCTree S A)
    (p q rest : List Nat) (hp : p = q ++ rest) (nd : MCTree S A)
    (hq : getNode t q = some nd) :
    ∃ nd', getNode (back_propagate r t p) q = some nd' ∧
      nd'.visits = nd.visits + 1 ∧
      nd'.reward = nd.reward + altReward (max 0 r) rest.length ∧
      nd'.state = nd.state := by
  subst hp
  obtain ⟨nd', h1, h2, h3, h4, _⟩ := getNode_backPropAux (max 0 r) q rest t nd hq
  exact ⟨nd', h1, h2, h3, h4⟩

/-- Witness for C3 on the concrete three-level tree `bpTree`, one level
above the expanded node (where a raw result of 1 contributes 0). -/
theorem claim3_back_propagate_spec_witness :
    ∃ nd', getNode (back_propagate 1 bpTree [0, 0]) [0] = some nd' ∧
      nd'.visits = (MCTree.node 1 1 0 [(5, MCTree.node 2 1 0 [])] : MCTree Nat Nat).visits + 1 ∧
      nd'.reward = (MCTree.node 1 1 0 [(5, MCTree.node 2 1 0 [])] : MCTree Nat Nat).reward +
        altReward (max 0 1) [0].length ∧
      nd'.state = (MCTree.node 1 1 0 [(5, MCTree.node 2 1 0 [])] : MCTree Nat Nat).state :=
  claim3_back_propagate_spec 1 bpTree [0, 0] [0] [0] rfl _ rfl

/-- C4 counterexample: the claim says `simulate` returns the utility
from the perspective of the player about to move in the original state.
In the game `cg4`, player 0 is to move at state `0`, its only playout
reaches the terminal state `1` whose utility for player 0 is `1`, but
`simulate` returns `0` — the utility for the *opponent*
(`1 - state.to_move`). -/
theorem claim4_simulate_perspective_counterexample :
    simulate cg4 (fun _ => 0) 0 = some 0 ∧
    cg4.utility (cg4.result 0 5) (cg4.to_move 0) = 1 ∧
    simulate cg4 (fun _ => 0) 0 ≠ some (cg4.utility (cg4.result 0 5) (cg4.to_move 0)) :=
  ⟨by decide, by decide, by decide⟩

/-- Under the game-interface contract, the playout loop always returns
a state, reached by legal actions, and stops only at a terminal state or
when its step budget is exhausted. -/
theorem rolloutAux_total (g : Game S A) (pick : Nat → Nat) (Hc : Contract g) :
    ∀ steps i s, ∃ fs n, rolloutAux g pick steps i s = some fs ∧
      PlayRelN g n s fs ∧ n ≤ steps ∧
      (g.is_terminal fs = true ∨ n = steps) := by
  intro steps
  induction steps with
  | zero => exact fun i s => ⟨s, 0, rfl, .refl s, Nat.le_refl 0, Or.inr rfl⟩
  | succ st ih =>
    intro i s
    by_cases ht : g.is_terminal s = true
    · exact ⟨s, 0, by simp [rolloutAux, ht], .refl s, Nat.zero_le _, Or.inl ht⟩
    · have ht' : g.is_terminal s = false := by
        cases h : g.is_terminal s
        · rfl
        · exact absurd h ht
      have hne : g.actions s ≠ [] := Hc s ht'
      have hlen : 0 < (g.actions s).length := List.length_pos.2 hne
      have hlt : pick i % (g.actions s).length < (g.actions s).length :=
        Nat.mod_lt _ hlen
      obtain ⟨fs, n, h1, h2, h3, h4⟩ := ih (i + 1) (g.result s (g.actions s)[pick i % (g.actions s).length])
      refine ⟨fs, n + 1, ?_, ?_, Nat.succ_le_succ h3, ?_⟩
      · simp only [rolloutAux, ht', Bool.false_eq_true, if_false,
          List.getElem?_eq_getElem hlt]
        exact h1
      · exact .step n s _ fs (List.getElem_mem hlt) h2
      · cases h4 with
        | inl h => exact Or.inl h
        | inr h => exact Or.inr (by rw [h])

/-- C4, amended: `simulate` plays pick-chosen legal actions from the
given state until a terminal state is reached or the 500-step safety
cap is exhausted, whichever comes first, and returns the utility of the
reached state computed via the rules engine — but from the perspective
of the *opponent* (`1 - state.to_move`) of the player who was about to
move in the original state, not of that player itself. -/
theorem claim4_simulate_amended (g : Game S A) (pick : Nat → Nat) (s : S)
    (Hc : Contract g) :
    ∃ fs n, rolloutAux g pick 500 0 s = some fs ∧
      PlayRelN g n s fs ∧ n ≤ 500 ∧
      (g.is_terminal fs = true ∨ n = 500) ∧
      simulate g pick s = some (g.utility fs (1 - g.to_move s)) := by
  obtain ⟨fs, n, h1, h2, h3, h4⟩ := rolloutAux_total g pick Hc 500 0 s
  exact ⟨fs, n, h1, h2, h3, h4, by simp [simulate, h1]⟩

/-- Witness for C4 (amended) on the game `cg4`: the playout from state
`0` reaches the terminal state `1` and `simulate` returns the utility
for player `1 - to_move(0)`. -/
theorem claim4_simulate_amended_witness :
    Contract cg4 ∧
    simulate cg4 (fun _ => 0) 0 = some (cg4.utility 1 (1 - cg4.to_move 0)) := by
  have hc : Contract cg4 := by
    intro s h
    have hs : s = 0 := by
      by_contra hne
      simp [cg4, hne] at h
    subst hs
    simp [cg4]
  refine ⟨hc, ?_⟩
  obtain ⟨fs, n, h1, _, _, _, h5⟩ := claim4_simulate_amended cg4 (fun _ => 0) 0 hc
  have hfs : fs = 1 := by
    have hr : rolloutAux cg4 (fun _ => 0) 500 0 0 = some 1 := by decide
    rw [hr] at h1
    exact (Option.some_inj.1 h1).symm
  rw [hfs] at h5
  exact h5

/-! ### Infrastructure lemmas for the UCT tree -/

/-- A tree-wide property holds at the root. -/
theorem AllNodes_self {P : MCTree S A → Prop} {t : MCTree S A}
    (h : AllNodes P t) : P t := by
  cases h with
  | mk s n u cs hp hcs => exact hp

/-- A tree-wide property restricts to every child subtree. -/
theorem AllNodes_children {P : MCTree S A → Prop} {t : MCTree S A}
    (h : AllNodes P t) : ∀ ac ∈ t.children, AllNodes P ac.2 := by
  cases h with
  | mk s n u cs hp hcs => exact hcs

/-- A tree-wide property restricts to the subtree at any valid path. -/
theorem AllNodes_getNode {P : MCTree S A → Prop} {t x : MCTree S A}
    (q : List Nat) (h : AllNodes P t) (hq : getNode t q = some x) :
    AllNodes P x := by
  induction q generalizing t with
  | nil =>
    simp only [getNode, Option.some.injEq] at hq
    exact hq ▸ h
  | cons j q' ih =>
    cases t with
    | node s n u cs =>
      simp only [getNode, MCTree.children] at hq
      cases hj : cs[j]? with
      | none => rw [hj] at hq; exact absurd hq (by simp)
      | some ac =>
        rw [hj] at hq
        exact ih (AllNodes_children h ac (List.getElem?_mem hj)) hq

/-- Height bounds are upward closed. -/
theorem HeightLe_mono {t : MCTree S A} {h h' : Nat}
    (hd : HeightLe t h) (hle : h ≤ h') : HeightLe t h' := by
  induction hd generalizing h' with
  | mk s n u cs k hcs ih =>
    cases h' with
    | zero => omega
    | succ k' => exact .mk s n u cs k' (fun ac hac => ih ac hac (by omega))

/-- The eagerly generated children cover the legal actions in order. -/
theorem mkChildren_map_fst (g : Game S A) (s : S) :
    (mkChildren g s).map Prod.fst = g.actions s := by
  simp [mkChildren, Function.comp_def]

/-- Every eagerly generated child is a fresh statistics-free leaf. -/
theorem mkChildren_fresh (g : Game S A) (s : S) :
    ∀ ac ∈ mkChildren g s, ∃ a', ac.2 = MCTree.node (g.result s a') 0 0 [] := by
  intro ac hac
  simp only [mkChildren, List.mem_map] at hac
  obtain ⟨a, _, rfl⟩ := hac
  exact ⟨a, rfl⟩

/-- The UCB1 score is infinite exactly for unvisited nodes. -/
theorem UCB1_eq_top (sq : Nat → Nat → ℚ) (pN n : Nat) (u : ℚ) :
    UCB1 sq pN n u = ⊤ ↔ n = 0 := by
  unfold UCB1
  by_cases h : n = 0
  · simp [h]
  · simp [h, WithTop.coe_ne_top]

/-- Path lookup distributes over path concatenation. -/
theorem getNode_append (p q : List Nat) (t : MCTree S A) :
    getNode t (p ++ q) = (getNode t p).bind (fun x => getNode x q) := by
  induction p generalizing t with
  | nil => simp [getNode]
  | cons j p' ih =>
    cases t with
    | node s n u cs =>
      simp only [List.cons_append, getNode, MCTree.children]
      cases hj : cs[j]? with
      | none => simp
      | some ac => simpa using ih ac.2

/-- Looking up the exact path of an update yields the transformed
subtree. -/
theorem getNode_updateAt (q : List Nat) (f : MCTree S A → MCTree S A)
    (t x : MCTree S A) (hq : getNode t q = some x) :
    getNode (updateAt t q f) q = some (f x) := by
  induction q generalizing t with
  | nil =>
    simp only [getNode, Option.some.injEq] at hq
    subst hq
    cases t with
    | node s n u cs => rfl
  | cons j q' ih =>
    cases t with
    | node s n u cs =>
      simp only [getNode, MCTree.children] at hq
      cases hj : cs[j]? with
      | none => rw [hj] at hq; exact absurd hq (by simp)
      | some ac =>
        rw [hj] at hq
        have hlt : j < cs.length := (List.getElem?_eq_some.1 hj).1
        simp only [updateAt, hj, getNode, MCTree.children]
        rw [List.getElem?_set_eq_of_lt _ hlt]
        exact ih ac.2 hq

/-- Looking up a strict prefix of an update path sees a node with the
same state, statistics and child actions as before the update. -/
theorem getNode_updateAt_strict (q rest : List Nat)
    (f : MCTree S A → MCTree S A) (t x' : MCTree S A) (hrest : rest ≠ [])
    (hq : getNode (updateAt t (q ++ rest) f) q = some x') :
    ∃ x, getNode t q = some x ∧ x'.state = x.state ∧
      x'.visits = x.visits ∧ x'.reward = x.reward ∧
      x'.children.map Prod.fst = x.children.map Prod.fst := by
  induction q generalizing t with
  | nil =>
    simp only [getNode, Option.some.injEq] at hq
    subst hq
    refine ⟨t, rfl, ?_⟩
    cases rest with
    | nil => exact absurd rfl hrest
    | cons i rest' =>
      cases t with
      | node s n u cs =>
        cases hi : cs[i]? with
        | none =>
          simp [updateAt, hi, MCTree.state, MCTree.visits, MCTree.reward,
            MCTree.children]
        | some ac =>
          simp [List.nil_append, updateAt, hi, MCTree.state, MCTree.visits,
            MCTree.reward, MCTree.children, map_fst_set cs i ac _ hi]
  | cons j q' ih =>
    cases t with
    | node s n u cs =>
      simp only [List.cons_append, updateAt, MCTree.children] at hq
      cases hj : cs[j]? with
      | none =>
        rw [hj] at hq
        simp only [getNode, MCTree.children] at hq
        rw [hj] at hq
        exact absurd hq (by simp)
      | some ac =>
        rw [hj] at hq
        have hlt : j < cs.length := (List.getElem?_eq_some.1 hj).1
        simp only [getNode, MCTree.children] at hq
        rw [List.getElem?_set_eq_of_lt _ hlt] at hq
        obtain ⟨x, h1, h2⟩ := ih ac.2 hq
        refine ⟨x, ?_, h2⟩
        simp only [getNode, MCTree.children, hj]
        exact h1

/-- Replacing one list element whose mapped value grows by one bumps
the mapped sum by exactly one. -/
theorem sum_map_set_succ {α : Type} (fn : α → Nat) (l : List α) (i : Nat)
    (x y : α) (hx : l[i]? = some x) (hy : fn y = fn x + 1) :
    ((l.set i y).map fn).sum = (l.map fn).sum + 1 := by
  induction l generalizing i with
  | nil => simp at hx
  | cons c cs ih =>
    cases i with
    | zero =>
      simp only [List.getElem?_cons_zero, Option.some.injEq] at hx
      subst hx
      simp only [List.set, List.map_cons, List.sum_cons, hy]
      omega
    | succ j =>
      simp only [List.getElem?_cons_succ] at hx
      simp only [List.set, List.map_cons, List.sum_cons, ih j hx]
      omega

/-- Replacing one list element with the same mapped value keeps the
mapped sum. -/
theorem sum_map_set_eq {α : Type} (fn : α → Nat) (l : List α) (i : Nat)
    (x y : α) (hx : l[i]? = some x) (hy : fn y = fn x) :
    ((l.set i y).map fn).sum = (l.map fn).sum := by
  induction l generalizing i with
  | nil => simp at hx
  | cons c cs ih =>
    cases i with
    | zero =>
      simp only [List.getElem?_cons_zero, Option.some.injEq] at hx
      subst hx
      simp [List.set, hy]
    | succ j =>
      simp only [List.getElem?_cons_succ] at hx
      simp only [List.set, List.map_cons, List.sum_cons, ih j hx]

/-- Backpropagating along a path through child `i` of the root bumps
the root children's visit sum by exactly one. -/
theorem backPropAux_sumRootN (r : ℚ) (t : MCTree S A) (i : Nat)
    (rest : List Nat) (ac : A × MCTree S A) (hi : t.children[i]? = some ac) :
    sumRootN (backPropAux r t (i :: rest)) = sumRootN t + 1 := by
  cases t with
  | node s n u cs =>
    simp only [MCTree.children] at hi
    simp only [sumRootN, backPropAux, MCTree.children, hi]
    exact sum_map_set_succ _ cs i ac _ hi (backPropAux_top r ac.2 rest).1

/-- An update whose transformation preserves visit counts preserves the
visit count of the updated node. -/
theorem updateAt_visits (f : MCTree S A → MCTree S A)
    (hf : ∀ y, (f y).visits = y.visits) (q : List Nat) (t : MCTree S A) :
    (updateAt t q f).visits = t.visits := by
  cases q with
  | nil => exact hf t
  | cons i p =>
    cases hi : t.children[i]? with
    | none => simp [updateAt, hi]
    | some ac => simp [updateAt, hi, MCTree.visits]

/-- An update strictly below the root, with a visit-preserving
transformation, keeps the root children's visit sum. -/
theorem updateAt_sumRootN (f : MCTree S A → MCTree S A)
    (hf : ∀ y, (f y).visits = y.visits) (i : Nat) (q : List Nat)
    (t : MCTree S A) :
    sumRootN (updateAt t (i :: q) f) = sumRootN t := by
  cases t with
  | node s n u cs =>
    cases hi : cs[i]? with
    | none => simp [updateAt, MCTree.children, hi]
    | some ac =>
      simp only [sumRootN, updateAt, MCTree.children, hi]
      exact sum_map_set_eq _ cs i ac _ hi (updateAt_visits f hf q ac.2)

/-- An update strictly below the root keeps the root's state and the
root children's actions. -/
theorem updateAt_surface (f : MCTree S A → MCTree S A) (i : Nat)
    (q : List Nat) (t : MCTree S A) :
    (updateAt t (i :: q) f).state = t.state ∧
    (updateAt t (i :: q) f).children.map Prod.fst = t.children.map Prod.fst := by
  cases t with
  | node s n u cs =>
    cases hi : cs[i]? with
    | none => simp [updateAt, MCTree.children, hi]
    | some ac =>
      simp [updateAt, MCTree.children, MCTree.state, hi, map_fst_set cs i ac _ hi]

/-- Backpropagation keeps the root's state and the root children's
actions (it only touches statistics). -/
theorem backPropAux_surface (r : ℚ) (t : MCTree S A) (p : List Nat) :
    (backPropAux r t p).state = t.state ∧
    (backPropAux r t p).children.map Prod.fst = t.children.map Prod.fst :=
  ⟨(backPropAux_top r t p).2.2.1, (backPropAux_top r t p).2.2.2⟩

/-- Tree-wide properties that only look at a node's state, statistics
and child actions are preserved by updating the subtree at a path,
provided the transformed subtree satisfies the property throughout. -/
theorem updateAt_AllNodes {P : MCTree S A → Prop}
    (hP : ∀ (s : S) (n : Nat) (u : ℚ) cs cs',
      cs.map Prod.fst = cs'.map Prod.fst →
      P (.node s n u cs) → P (.node s n u cs'))
    (f : MCTree S A → MCTree S A) (q : List Nat) (t : MCTree S A)
    (hA : AllNodes P t)
    (hf : ∀ x, getNode t q = some x → AllNodes P (f x)) :
    AllNodes P (updateAt t q f) := by
  induction q generalizing t with
  | nil => exact hf t rfl
  | cons i p ih =>
    cases t with
    | node s n u cs =>
      cases hi : cs[i]? with
      | none => simpa [updateAt, MCTree.children, hi] using hA
      | some ac =>
        simp only [updateAt, MCTree.children, MCTree.state, MCTree.visits,
          MCTree.reward, hi]
        refine AllNodes.mk s n u _ ?_ ?_
        · exact hP s n u cs _ (map_fst_set cs i ac _ hi).symm (AllNodes_self hA)
        · intro ac' hmem
          rcases List.mem_or_eq_of_mem_set hmem with h | h
          · exact AllNodes_children hA ac' h
          · subst h
            exact ih ac.2 (AllNodes_children hA ac (List.getElem?_mem hi))
              (fun x hx => hf x (by simp [getNode, MCTree.children, hi, hx]))

/-- Backpropagation preserves the structural invariant along a path all
of whose nodes are terminal or have generated children. -/
theorem backPropAux_TreeInv (g : Game S A) (r : ℚ) (p : List Nat)
    (t : MCTree S A) (hA : TreeInv g t) (hP : PathOK g t p) :
    TreeInv g (backPropAux r t p) := by
  induction p generalizing t with
  | nil =>
    cases t with
    | node s n u cs =>
      refine AllNodes.mk s (n + 1) _ cs ?_ (AllNodes_children hA)
      intro _ hterm
      rcases hP [] [] (.node s n u cs) rfl rfl with h | h
      · simp only [MCTree.state] at hterm h
        rw [h] at hterm
        cases hterm
      · simpa [ChildrenOK, MCTree.children, MCTree.state] using h
  | cons i p' ih =>
    cases t with
    | node s n u cs =>
      cases hi : cs[i]? with
      | none =>
        simp only [backPropAux, hi]
        refine AllNodes.mk s (n + 1) _ cs ?_ (AllNodes_children hA)
        intro _ hterm
        rcases hP [] (i :: p') (.node s n u cs) rfl rfl with h | h
        · simp only [MCTree.state] at hterm h
          rw [h] at hterm
          cases hterm
        · simpa [ChildrenOK, MCTree.children, MCTree.state] using h
      | some ac =>
        simp only [backPropAux, hi]
        refine AllNodes.mk s (n + 1) _ _ ?_ ?_
        · intro _ hterm
          rcases hP [] (i :: p') (.node s n u cs) rfl rfl with h | h
          · simp only [MCTree.state] at hterm h
            rw [h] at hterm
            cases hterm
          · simp only [ChildrenOK, MCTree.children, MCTree.state] at h ⊢
            rw [map_fst_set cs i ac _ hi]
            exact h
        · intro ac' hmem
          rcases List.mem_or_eq_of_mem_set hmem with h | h
          · exact AllNodes_children hA ac' h
          · subst h
            refine ih ac.2 (AllNodes_children hA ac (List.getElem?_mem hi)) ?_
            intro q rest x hqr hx
            exact hP (i :: q) rest x (by rw [hqr]; rfl)
              (by simpa [getNode, MCTree.children, hi] using hx)

/-- The alternating reward stays in `[0, 1]` when the clamped result
does. -/
theorem altReward_mem (r : ℚ) (k : Nat) (h0 : 0 ≤ r) (h1 : r ≤ 1) :
    0 ≤ altReward r k ∧ altReward r k ≤ 1 := by
  unfold altReward
  by_cases h : k % 2 = 0 <;> simp [h] <;> constructor <;> linarith

/-- Backpropagating a clamped result in `[0, 1]` preserves the
statistics invariant. -/
theorem backPropAux_Stats (r : ℚ) (p : List Nat) (t : MCTree S A)
    (h0 : 0 ≤ r) (h1 : r ≤ 1) (hA : StatsOK t) :
    StatsOK (backPropAux r t p) := by
  induction p generalizing t with
  | nil =>
    cases t with
    | node s n u cs =>
      obtain ⟨hu0, hun, -⟩ := AllNodes_self hA
      obtain ⟨ha0, ha1⟩ := altReward_mem r 0 h0 h1
      refine AllNodes.mk s (n + 1) _ cs ?_ (AllNodes_children hA)
      refine ⟨?_, ?_, ?_⟩
      · simp only [MCTree.reward] at hu0 ⊢
        linarith
      · simp only [MCTree.reward, MCTree.visits] at hun ⊢
        push_cast
        linarith
      · intro h
        simp [MCTree.visits] at h
  | cons i p' ih =>
    cases t with
    | node s n u cs =>
      obtain ⟨hu0, hun, -⟩ := AllNodes_self hA
      obtain ⟨ha0, ha1⟩ := altReward_mem r (p'.length + 1) h0 h1
      cases hi : cs[i]? with
      | none =>
        simp only [backPropAux, hi]
        refine AllNodes.mk s (n + 1) _ cs ?_ (AllNodes_children hA)
        refine ⟨?_, ?_, ?_⟩
        · simp only [MCTree.reward] at hu0 ⊢
          linarith
        · simp only [MCTree.reward, MCTree.visits] at hun ⊢
          push_cast
          linarith
        · intro h
          simp [MCTree.visits] at h
      | some ac =>
        simp only [backPropAux, hi]
        refine AllNodes.mk s (n + 1) _ _ ?_ ?_
        · refine ⟨?_, ?_, ?_⟩
          · simp only [MCTree.reward] at hu0 ⊢
            linarith
          · simp only [MCTree.reward, MCTree.visits] at hun ⊢
            push_cast
            linarith
          · intro h
            simp [MCTree.visits] at h
        · intro ac' hmem
          rcases List.mem_or_eq_of_mem_set hmem with h | h
          · exact AllNodes_children hA ac' h
          · subst h
            exact ih ac.2 (AllNodes_children hA ac (List.getElem?_mem hi))

/-- Soundness of the UCB1 argmax loop: a returned best index addresses
a real child; an infinite running maximum comes from an unvisited
child; and the best index is only unassigned when the loop had nothing
to scan. -/
theorem argmaxLoop_spec (sq : Nat → Nat → ℚ) (pN : Nat)
    (cs : List (A × MCTree S A)) :
    ∀ (l : List (A × MCTree S A)) (idx : Nat) (mv : WithBot (WithTop ℚ))
      (best : Option Nat),
    (∀ k, l[k]? = cs[idx + k]?) →
    (∀ i, best = some i → ∃ ac, cs[i]? = some ac) →
    (mv = ((⊤ : WithTop ℚ) : WithBot (WithTop ℚ)) → ∃ ac ∈ cs, ac.2.visits = 0) →
    (best = none → mv = ⊥) →
    (∀ i, (argmaxLoop sq pN l idx mv best).2 = some i → ∃ ac, cs[i]? = some ac) ∧
    ((argmaxLoop sq pN l idx mv best).1 = ((⊤ : WithTop ℚ) : WithBot (WithTop ℚ)) →
      ∃ ac ∈ cs, ac.2.visits = 0) ∧
    ((argmaxLoop sq pN l idx mv best).2 = none → l = [] ∧ best = none) := by
  intro l
  induction l with
  | nil =>
    intro idx mv best _ hval htop hnone
    refine ⟨fun i hi => hval i hi, fun h => htop h, fun hb => ⟨rfl, hb⟩⟩
  | cons ac rest ih =>
    intro idx mv best hsub hval htop hnone
    have hhead : cs[idx]? = some ac := by
      have := hsub 0
      simpa using this.symm
    have hsub' : ∀ k, rest[k]? = cs[(idx + 1) + k]? := by
      intro k
      have := hsub (k + 1)
      simpa [Nat.add_assoc, Nat.add_comm 1 k] using this
    have hmem : ac ∈ cs := List.getElem?_mem hhead
    simp only [argmaxLoop]
    by_cases h1 : mv < ((UCB1 sq pN ac.2.visits ac.2.reward : WithTop ℚ) : WithBot (WithTop ℚ))
    · rw [if_pos h1]
      by_cases h2 : ((UCB1 sq pN ac.2.visits ac.2.reward : WithTop ℚ) : WithBot (WithTop ℚ)) =
          ((⊤ : WithTop ℚ) : WithBot (WithTop ℚ))
      · rw [if_pos h2]
        refine ⟨?_, ?_, ?_⟩
        · intro i hi
          simp only [Option.some.injEq] at hi
          exact ⟨ac, hi ▸ hhead⟩
        · intro _
          refine ⟨ac, hmem, ?_⟩
          have : UCB1 sq pN ac.2.visits ac.2.reward = ⊤ := by
            exact_mod_cast h2
          exact (UCB1_eq_top sq pN _ _).1 this
        · intro h
          simp at h
      · rw [if_neg h2]
        have := ih (idx + 1)
          ((UCB1 sq pN ac.2.visits ac.2.reward : WithTop ℚ) : WithBot (WithTop ℚ))
          (some idx) hsub'
          (fun i hi => by
            simp only [Option.some.injEq] at hi
            exact ⟨ac, hi ▸ hhead⟩)
          (fun h => absurd h h2)
          (fun h => by simp at h)
        refine ⟨this.1, this.2.1, fun h => absurd (this.2.2 h).2 (by simp)⟩
    · rw [if_neg h1]
      have := ih (idx + 1) mv best hsub' hval htop hnone
      refine ⟨this.1, this.2.1, fun h => ?_⟩
      obtain ⟨-, hbn⟩ := this.2.2 h
      have hmv : mv = ⊥ := hnone hbn
      subst hmv
      exact absurd (WithBot.bot_lt_coe _) h1

/-- Soundness of `select` under the structural invariant: with fuel at
least the tree height it returns the path of a leaf (a node that is
terminal or has an unvisited child) every node of which is terminal or
has generated children. -/
theorem selectF_spec (g : Game S A) (sq : Nat → Nat → ℚ) (Hc : Contract g) :
    ∀ (fuel h : Nat) (t : MCTree S A), HeightLe t h → h ≤ fuel →
    TreeInv g t →
    (g.is_terminal t.state = true ∨ ChildrenOK g t) →
    ∃ p leaf, selectF g sq fuel t = some p ∧ getNode t p = some leaf ∧
      (g.is_terminal leaf.state = true ∨ ∃ ac ∈ leaf.children, ac.2.visits = 0) ∧
      PathOK g t p ∧
      (g.is_terminal t.state = true → p = []) := by
  intro fuel
  induction fuel with
  | zero =>
    intro h t ht hle
    have h0 : h = 0 := Nat.le_zero.1 hle
    subst h0
    cases ht
  | succ f ih =>
    intro h t ht hle hInv hRoot
    cases t with
    | node s n u cs =>
      by_cases hguard : (cs.any (fun ac => ac.2.visits = 0) || g.is_terminal s) = true
      · refine ⟨[], .node s n u cs, by simp [selectF, hguard], rfl, ?_, ?_, fun _ => rfl⟩
        · rcases Bool.or_eq_true_iff.1 hguard with hany | hterm
          · right
            obtain ⟨x, hx, hx0⟩ := List.any_eq_true.1 hany
            exact ⟨x, by simpa [MCTree.children] using hx, by simpa using hx0⟩
          · exact Or.inl (by simpa [MCTree.state] using hterm)
        · intro q rest x hqr hx
          obtain ⟨hq, -⟩ := List.append_eq_nil.1 hqr.symm
          subst hq
          simp only [getNode, Option.some.injEq] at hx
          subst hx
          exact hRoot
      · rw [Bool.not_eq_true] at hguard
        have hb := Bool.or_eq_false_iff.1 hguard
        have hany : cs.any (fun ac => ac.2.visits = 0) = false := hb.1
        have hterm : g.is_terminal s = false := hb.2
        have hall : ∀ ac ∈ cs, ac.2.visits ≠ 0 := by
          intro ac hac
          have := List.any_eq_false.1 hany ac hac
          simpa using this
        have hCO : ChildrenOK g (.node s n u cs) := by
          rcases hRoot with h | h
          · rw [MCTree.state] at h
            rw [h] at hterm
            cases hterm
          · exact h
        have hcsne : cs ≠ [] := by
          intro hcs
          subst hcs
          have : g.actions s ≠ [] := Hc s hterm
          simp [ChildrenOK, MCTree.children, MCTree.state] at hCO
          exact this hCO
        have hspec := argmaxLoop_spec sq n cs cs 0 ⊥ none
          (fun k => by simp) (fun i hi => by cases hi)
          (fun h => by simp [evTop] at h) (fun _ => rfl)
        cases hres : argmaxLoop sq n cs 0 ⊥ none with
        | mk mv obest =>
          rw [hres] at hspec
          cases obest with
          | none =>
            obtain ⟨hcs0, -⟩ := hspec.2.2 rfl
            exact absurd hcs0 hcsne
          | some i =>
            obtain ⟨ac, hi⟩ := hspec.1 i rfl
            by_cases htop : mv = ((⊤ : WithTop ℚ) : WithBot (WithTop ℚ))
            · obtain ⟨x, hx, hx0⟩ := hspec.2.1 htop
              exact absurd hx0 (hall x hx)
            · have hchvis : 1 ≤ ac.2.visits :=
                Nat.one_le_iff_ne_zero.2 (hall ac (List.getElem?_mem hi))
              obtain ⟨k, hk, hcs_h⟩ : ∃ k, h = k + 1 ∧ ∀ bc ∈ cs, HeightLe bc.2 k := by
                cases ht with
                | mk _ _ _ _ k hcs' => exact ⟨k, rfl, hcs'⟩
              have hchild_root : g.is_terminal ac.2.state = true ∨ ChildrenOK g ac.2 := by
                by_cases hct : g.is_terminal ac.2.state = true
                · exact Or.inl hct
                · exact Or.inr (AllNodes_self
                    (AllNodes_children hInv ac (List.getElem?_mem hi)) hchvis
                    (Bool.eq_false_iff.2 hct))
              obtain ⟨p', leaf, h1', h2', h3', h4', -⟩ := ih k ac.2
                (hcs_h ac (List.getElem?_mem hi))
                (by omega)
                (AllNodes_children hInv ac (List.getElem?_mem hi))
                hchild_root
              refine ⟨i :: p', leaf, ?_, ?_, h3', ?_,
                fun hq => absurd hq (by simp [MCTree.state, hterm])⟩
              · have htop' : ¬ mv = (⊤ : WithBot (WithTop ℚ)) := by simpa using htop
                simp [selectF, hguard, hres, htop', hi, h1']
              · simp only [getNode, MCTree.children, hi]
                exact h2'
              · intro q rest x hqr hx
                cases q with
                | nil =>
                  simp only [getNode, Option.some.injEq] at hx
                  subst hx
                  exact Or.inr hCO
                | cons j q'' =>
                  simp only [List.cons_append, List.cons.injEq] at hqr
                  obtain ⟨rfl, hqr'⟩ := hqr
                  simp only [getNode, MCTree.children, hi] at hx
                  exact h4' q'' rest x hqr' hx

/-- Inverting one step of a path lookup. -/
theorem getNode_cons_inv (t x : MCTree S A) (i : Nat) (rest : List Nat)
    (h : getNode t (i :: rest) = some x) :
    ∃ ac, t.children[i]? = some ac ∧ getNode ac.2 rest = some x := by
  simp only [getNode] at h
  cases hi : t.children[i]? with
  | none => rw [hi] at h; exact absurd h (by simp)
  | some ac => rw [hi] at h; exact ⟨ac, rfl, h⟩

/-- Backpropagating at the root itself does not change the root
children's visit sum. -/
theorem sumRootN_backPropAux_nil (r : ℚ) (t : MCTree S A) :
    sumRootN (backPropAux r t []) = sumRootN t := by
  cases t with
  | node s n u cs => rfl

/-- Backpropagation does not grow the tree. -/
theorem backPropAux_HeightLe (r : ℚ) (p : List Nat) (t : MCTree S A)
    (h : Nat) (ht : HeightLe t h) : HeightLe (backPropAux r t p) h := by
  induction p generalizing t h with
  | nil =>
    cases t with
    | node s n u cs =>
      cases ht with
      | mk _ _ _ _ k hcs => exact .mk _ _ _ _ k hcs
  | cons i p' ih =>
    cases t with
    | node s n u cs =>
      cases ht with
      | mk _ _ _ _ k hcs =>
        cases hi : cs[i]? with
        | none => exact .mk _ _ _ _ k (by simpa [backPropAux, hi] using hcs)
        | some ac =>
          simp only [backPropAux, hi]
          refine .mk _ _ _ _ k ?_
          intro ac' hmem
          rcases List.mem_or_eq_of_mem_set hmem with hm | hm
          · exact hcs ac' hm
          · subst hm
            exact ih ac.2 k (hcs ac (List.getElem?_mem hi))

/-- An update whose transformation grows the height of the transformed
subtree by at most one grows the height of the whole tree by at most
one. -/
theorem updateAt_HeightLe (f : MCTree S A → MCTree S A)
    (hf : ∀ (y : MCTree S A) (h' : Nat), HeightLe y h' → HeightLe (f y) (h' + 1))
    (q : List Nat) (t : MCTree S A) (h : Nat) (ht : HeightLe t h) :
    HeightLe (updateAt t q f) (h + 1) := by
  induction q generalizing t h with
  | nil => exact hf t h ht
  | cons i p ih =>
    cases t with
    | node s n u cs =>
      cases ht with
      | mk _ _ _ _ k hcs =>
        cases hi : cs[i]? with
        | none =>
          simp only [updateAt, MCTree.children, hi]
          exact .mk _ _ _ _ (k + 1)
            (fun ac hac => HeightLe_mono (hcs ac hac) (Nat.le_succ k))
        | some ac =>
          simp only [updateAt, MCTree.children, MCTree.state, MCTree.visits,
            MCTree.reward, hi]
          refine .mk _ _ _ _ (k + 1) ?_
          intro ac' hmem
          rcases List.mem_or_eq_of_mem_set hmem with hm | hm
          · exact HeightLe_mono (hcs ac' hm) (Nat.le_succ k)
          · subst hm
            exact ih ac.2 k (hcs ac (List.getElem?_mem hi))

/-- The population step keeps a node's state and statistics. -/
theorem popFn_surface (g : Game S A) (y : MCTree S A) :
    (popFn g y).state = y.state ∧ (popFn g y).visits = y.visits ∧
    (popFn g y).reward = y.reward := by
  cases y with
  | node s n u cs => exact ⟨rfl, rfl, rfl⟩

/-- The population step produces a node with generated children, all of
them fresh leaves. -/
theorem popFn_children (g : Game S A) (y : MCTree S A) :
    (popFn g y).children = mkChildren g y.state := by
  cases y with
  | node s n u cs => rfl

/-- The population step grows the height of its node by at most one. -/
theorem popFn_HeightLe (g : Game S A) (y : MCTree S A) (h : Nat)
    (hy : HeightLe y h) : HeightLe (popFn g y) (h + 1) := by
  cases y with
  | node s n u cs =>
    cases hy with
    | mk _ _ _ _ k _ =>
      refine .mk _ _ _ _ (k + 1) ?_
      intro ac hac
      obtain ⟨a', ha'⟩ := mkChildren_fresh g s ac hac
      rw [ha']
      exact HeightLe_mono (.mk _ _ _ _ 0 (by simp)) (by omega)

/-- A freshly populated node satisfies the structural invariant
throughout. -/
theorem popFn_TreeInv (g : Game S A) (y : MCTree S A) :
    TreeInv g (popFn g y) := by
  cases y with
  | node s n u cs =>
    refine AllNodes.mk s n u (mkChildren g s) ?_ ?_
    · intro _ _
      simp [ChildrenOK, MCTree.children, MCTree.state, mkChildren_map_fst]
    · intro ac hac
      obtain ⟨a', ha'⟩ := mkChildren_fresh g s ac hac
      rw [ha']
      exact AllNodes.mk _ 0 0 [] (by intro h; cases h) (by simp)

/-- The population step leaves every node statistics-wise intact and
its fresh leaves with zeroed statistics, so it preserves the statistics
invariant. -/
theorem popFn_Stats (g : Game S A) (y : MCTree S A) (hy : StatsOK y) :
    StatsOK (popFn g y) := by
  cases y with
  | node s n u cs =>
    have hself := AllNodes_self hy
    refine AllNodes.mk s n u (mkChildren g s)
      ⟨hself.1, hself.2.1, hself.2.2⟩ ?_
    intro ac hac
    obtain ⟨a', ha'⟩ := mkChildren_fresh g s ac hac
    rw [ha']
    exact AllNodes.mk _ 0 0 []
      ⟨le_refl 0, by simp [MCTree.reward, MCTree.visits], fun _ => rfl⟩ (by simp)

/-- An index of `children_without_simulation` addresses an unvisited
child. -/
theorem zeroVisitIdxs_mem (cs : List (A × MCTree S A)) (j : Nat)
    (hj : j ∈ zeroVisitIdxs cs) :
    ∃ ac, cs[j]? = some ac ∧ ac.2.visits = 0 := by
  simp only [zeroVisitIdxs, List.mem_filter, List.mem_range] at hj
  obtain ⟨-, hp⟩ := hj
  cases hij : cs[j]? with
  | none => rw [hij] at hp; cases hp
  | some ac =>
    rw [hij] at hp
    exact ⟨ac, rfl, by simpa using hp⟩

/-- If some child is unvisited, `children_without_simulation` is
non-empty. -/
theorem zeroVisitIdxs_ne_nil (cs : List (A × MCTree S A))
    (h : ∃ ac ∈ cs, ac.2.visits = 0) : zeroVisitIdxs cs ≠ [] := by
  obtain ⟨ac, hmem, h0⟩ := h
  obtain ⟨j, hjlt, hj⟩ := List.mem_iff_getElem.1 hmem
  have : j ∈ zeroVisitIdxs cs := by
    simp only [zeroVisitIdxs, List.mem_filter, List.mem_range]
    refine ⟨hjlt, ?_⟩
    rw [List.getElem?_eq_getElem hjlt, hj]
    simpa using h0
  intro hnil
  rw [hnil] at this
  cases this

/-- `expand` at a terminal node returns the node itself with the tree
unchanged. -/
theorem expand_terminal (g : Game S A) (pick : Nat) (t leaf : MCTree S A)
    (p : List Nat) (hget : getNode t p = some leaf)
    (ht : g.is_terminal leaf.state = true) :
    expand g pick t p = some (p, t) := by
  simp [expand, hget, ht]

/-- `expand` at a non-terminal node with an unvisited child chooses one
such child, populates its children, and returns its path. -/
theorem expand_nonterminal (g : Game S A) (pick : Nat) (t leaf : MCTree S A)
    (p : List Nat) (hget : getNode t p = some leaf)
    (ht : g.is_terminal leaf.state = false)
    (hz : ∃ ac ∈ leaf.children, ac.2.visits = 0) :
    ∃ j ac, leaf.children[j]? = some ac ∧ ac.2.visits = 0 ∧
      expand g pick t p = some (p ++ [j], updateAt t (p ++ [j]) (popFn g)) := by
  have hne := zeroVisitIdxs_ne_nil leaf.children hz
  have hlen : 0 < (zeroVisitIdxs leaf.children).length := List.length_pos.2 hne
  have hlt : pick % (zeroVisitIdxs leaf.children).length <
      (zeroVisitIdxs leaf.children).length := Nat.mod_lt _ hlen
  set j := (zeroVisitIdxs leaf.children)[pick % (zeroVisitIdxs leaf.children).length]
  have hjmem : j ∈ zeroVisitIdxs leaf.children := List.getElem_mem hlt
  obtain ⟨ac, hac, h0⟩ := zeroVisitIdxs_mem leaf.children j hjmem
  refine ⟨j, ac, hac, h0, ?_⟩
  simp [expand, hget, ht, List.getElem?_eq_getElem hlt]

/-- Under the game-interface contract, the simulation step always
returns a utility computed for the opponent of the simulated state's
mover. -/
theorem simulate_some (g : Game S A) (pick : Nat → Nat) (s : S)
    (Hc : Contract g) :
    ∃ fs, simulate g pick s = some (g.utility fs (1 - g.to_move s)) := by
  obtain ⟨fs, n, h1, -, -, -⟩ := rolloutAux_total g pick Hc 500 0 s
  exact ⟨fs, by simp [simulate, h1]⟩

/-- The structural node predicate only looks at child actions, never at
the child subtrees themselves. -/
theorem TreePred_respects (g : Game S A) :
    ∀ (s : S) (n : Nat) (u : ℚ) (cs cs' : List (A × MCTree S A)),
      cs.map Prod.fst = cs'.map Prod.fst →
      (1 ≤ (MCTree.node s n u cs).visits →
        g.is_terminal (MCTree.node s n u cs).state = false →
        ChildrenOK g (MCTree.node s n u cs)) →
      (1 ≤ (MCTree.node s n u cs').visits →
        g.is_terminal (MCTree.node s n u cs').state = false →
        ChildrenOK g (MCTree.node s n u cs')) := by
  intro s n u cs cs' hmap hpred h1 h2
  have := hpred h1 h2
  simp only [ChildrenOK, MCTree.children, MCTree.state] at this ⊢
  rw [← hmap]
  exact this

/-- The statistics node predicate ignores the children entirely. -/
theorem StatsP_respects :
    ∀ (s : S) (n : Nat) (u : ℚ) (cs cs' : List (A × MCTree S A)),
      cs.map Prod.fst = cs'.map Prod.fst →
      StatsP (MCTree.node s n u cs) → StatsP (MCTree.node s n u cs') := by
  intro s n u cs cs' _ h
  exact ⟨h.1, h.2.1, h.2.2⟩

/-- Surface preservation for an update anywhere strictly below the
root. -/
theorem updateAt_surface' (f : MCTree S A → MCTree S A) (q : List Nat)
    (t : MCTree S A) (hq : q ≠ []) :
    (updateAt t q f).state = t.state ∧
    (updateAt t q f).children.map Prod.fst = t.children.map Prod.fst := by
  cases q with
  | nil => exact absurd rfl hq
  | cons i q' => exact updateAt_surface f i q' t

/-- Visit-sum preservation for a visit-preserving update anywhere
strictly below the root. -/
theorem updateAt_sumRootN' (f : MCTree S A → MCTree S A)
    (hf : ∀ y, (f y).visits = y.visits) (q : List Nat) (t : MCTree S A)
    (hq : q ≠ []) : sumRootN (updateAt t q f) = sumRootN t := by
  cases q with
  | nil => exact absurd rfl hq
  | cons i q' => exact updateAt_sumRootN f hf i q' t

/-- One UCT iteration, under the game contract and the structural
invariant: it succeeds, preserves the invariant, grows the tree height
by at most one, keeps the root's state and child actions, and bumps the
root children's visit sum by exactly one — except on a terminal root,
where the backpropagation path is empty. -/
theorem uctIter_spec (g : Game S A) (sq : Nat → Nat → ℚ) (pe : Nat)
    (ps : Nat → Nat) (fuel h : Nat) (t : MCTree S A)
    (Hc : Contract g) (hInv : TreeInv g t)
    (hRoot : g.is_terminal t.state = true ∨ ChildrenOK g t)
    (ht : HeightLe t h) (hle : h ≤ fuel) :
    ∃ t' b, uctIter g sq pe ps fuel t = some (t', b) ∧
      TreeInv g t' ∧
      HeightLe t' (h + 1) ∧
      t'.state = t.state ∧
      t'.children.map Prod.fst = t.children.map Prod.fst ∧
      sumRootN t' = sumRootN t +
        (if g.is_terminal t.state = true then 0 else 1) := by
  obtain ⟨p, leaf, hsel, hget, hleaf, hpath, hpterm⟩ :=
    selectF_spec g sq Hc fuel h t ht hle hInv hRoot
  by_cases hlt : g.is_terminal leaf.state = true
  · -- the selected leaf is terminal: expansion returns it unchanged
    have hexp := expand_terminal g pe t leaf p hget hlt
    obtain ⟨fs, hsim⟩ := simulate_some g ps leaf.state Hc
    refine ⟨back_propagate (g.utility fs (1 - g.to_move leaf.state)) t p,
      g.is_terminal leaf.state,
      by simp [uctIter, hsel, hget, hexp, hsim], ?_, ?_, ?_, ?_, ?_⟩
    · exact backPropAux_TreeInv g _ p t hInv hpath
    · exact HeightLe_mono (backPropAux_HeightLe _ p t h ht) (Nat.le_succ h)
    · exact (backPropAux_surface _ t p).1
    · exact (backPropAux_surface _ t p).2
    · by_cases hrt : g.is_terminal t.state = true
      · rw [hpterm hrt, if_pos hrt]
        simp [back_propagate, sumRootN_backPropAux_nil]
      · rw [if_neg hrt]
        cases p with
        | nil =>
          simp only [getNode, Option.some.injEq] at hget
          rw [hget] at hrt
          exact absurd hlt hrt
        | cons i rest =>
          obtain ⟨ac, hac, -⟩ := getNode_cons_inv t leaf i rest hget
          exact backPropAux_sumRootN _ t i rest ac hac
  · -- the selected leaf is non-terminal and has an unvisited child
    have hlt' : g.is_terminal leaf.state = false := by
      cases hh : g.is_terminal leaf.state
      · rfl
      · exact absurd hh hlt
    have hzero : ∃ ac ∈ leaf.children, ac.2.visits = 0 := by
      rcases hleaf with hh | hh
      · exact absurd hh hlt
      · exact hh
    obtain ⟨j, ac, hjac, hj0, hexp⟩ :=
      expand_nonterminal g pe t leaf p hget hlt' hzero
    have hganc : getNode t (p ++ [j]) = some ac.2 := by
      rw [getNode_append]
      simp [hget, getNode, hjac]
    have hg2 : getNode (updateAt t (p ++ [j]) (popFn g)) (p ++ [j]) =
        some (popFn g ac.2) := getNode_updateAt _ _ _ _ hganc
    obtain ⟨fs, hsim⟩ := simulate_some g ps (popFn g ac.2).state Hc
    have hrt : g.is_terminal t.state = false := by
      cases hh : g.is_terminal t.state
      · rfl
      · exfalso
        have hp0 := hpterm hh
        subst hp0
        simp only [getNode, Option.some.injEq] at hget
        rw [hget] at hh
        rw [hh] at hlt'
        cases hlt'
    have hpj_ne : p ++ [j] ≠ [] := by simp
    have hInv2 : TreeInv g (updateAt t (p ++ [j]) (popFn g)) :=
      updateAt_AllNodes (TreePred_respects g) (popFn g) (p ++ [j]) t hInv
        (fun x _ => popFn_TreeInv g x)
    have hpath2 : PathOK g (updateAt t (p ++ [j]) (popFn g)) (p ++ [j]) := by
      intro q rest x hqr hx
      by_cases hrest : rest = []
      · subst hrest
        rw [List.append_nil] at hqr
        subst hqr
        rw [hg2] at hx
        have hx' : x = popFn g ac.2 := (Option.some_inj.1 hx).symm
        subst hx'
        right
        simp only [ChildrenOK, popFn_children, (popFn_surface g ac.2).1]
        exact mkChildren_map_fst g ac.2.state
      · obtain ⟨x₀, hx₀, hst, -, -, hmap⟩ :=
          getNode_updateAt_strict q rest (popFn g) t x hrest (by rw [← hqr]; exact hx)
        have hsplit : p = q ++ rest.dropLast := by
          have hrl : rest.dropLast ++ [rest.getLast hrest] = rest :=
            List.dropLast_append_getLast hrest
          have : p ++ [j] = (q ++ rest.dropLast) ++ [rest.getLast hrest] := by
            rw [List.append_assoc, hrl]
            exact hqr
          exact (List.append_inj' this rfl).1
        rcases hpath q rest.dropLast x₀ hsplit hx₀ with hh | hh
        · left
          rw [hst]
          exact hh
        · right
          simp only [ChildrenOK] at hh ⊢
          rw [hmap, hst]
          exact hh
    refine ⟨back_propagate (g.utility fs (1 - g.to_move (popFn g ac.2).state))
      (updateAt t (p ++ [j]) (popFn g)) (p ++ [j]), g.is_terminal leaf.state,
      by simp [uctIter, hsel, hget, hexp, hg2, hsim], ?_, ?_, ?_, ?_, ?_⟩
    · exact backPropAux_TreeInv g _ (p ++ [j]) _ hInv2 hpath2
    · exact backPropAux_HeightLe _ (p ++ [j]) _ (h + 1)
        (updateAt_HeightLe (popFn g) (popFn_HeightLe g) (p ++ [j]) t h ht)
    · simp only [back_propagate]
      rw [(backPropAux_surface _ _ (p ++ [j])).1]
      exact (updateAt_surface' (popFn g) (p ++ [j]) t hpj_ne).1
    · simp only [back_propagate]
      rw [(backPropAux_surface _ _ (p ++ [j])).2]
      exact (updateAt_surface' (popFn g) (p ++ [j]) t hpj_ne).2
    · rw [if_neg (by rw [hrt]; exact Bool.false_ne_true)]
      have hsum2 : sumRootN (updateAt t (p ++ [j]) (popFn g)) = sumRootN t :=
        updateAt_sumRootN' (popFn g) (fun y => (popFn_surface g y).2.1)
          (p ++ [j]) t hpj_ne
      cases hp : p ++ [j] with
      | nil => exact absurd hp hpj_ne
      | cons i0 tl =>
        rw [hp] at hg2
        obtain ⟨ac2, hac2, -⟩ := getNode_cons_inv _ _ i0 tl hg2
        rw [hp] at hsum2
        rw [back_propagate, backPropAux_sumRootN _ _ i0 tl ac2 hac2, hsum2]

/-- The fresh root is the population of a bare node. -/
theorem initTree_eq_popFn (g : Game S A) (s : S) :
    initTree g s = popFn g (.node s 0 0 []) := rfl

/-- The fresh root satisfies the structural invariant. -/
theorem initTree_TreeInv (g : Game S A) (s : S) : TreeInv g (initTree g s) :=
  initTree_eq_popFn g s ▸ popFn_TreeInv g (.node s 0 0 [])

/-- The fresh root satisfies the statistics invariant. -/
theorem initTree_Stats (g : Game S A) (s : S) : StatsOK (initTree g s) := by
  rw [initTree_eq_popFn]
  exact popFn_Stats g _ (AllNodes.mk s 0 0 []
    ⟨le_refl 0, by simp [MCTree.reward, MCTree.visits], fun _ => rfl⟩ (by simp))

/-- The fresh root has height at most two. -/
theorem initTree_HeightLe (g : Game S A) (s : S) : HeightLe (initTree g s) 2 := by
  rw [initTree_eq_popFn]
  exact popFn_HeightLe g _ 1 (.mk s 0 0 [] 0 (by simp))

/-- The fresh root's children cover the legal actions. -/
theorem initTree_ChildrenOK (g : Game S A) (s : S) :
    ChildrenOK g (initTree g s) := by
  simp [ChildrenOK, initTree, MCTree.children, MCTree.state, mkChildren_map_fst]

/-- The fresh root's children are all unvisited. -/
theorem initTree_sumRootN (g : Game S A) (s : S) :
    sumRootN (initTree g s) = 0 := by
  simp only [sumRootN, initTree, MCTree.children]
  refine List.sum_eq_zero ?_
  intro x hx
  simp only [List.mem_map] at hx
  obtain ⟨ac, hac, rfl⟩ := hx
  obtain ⟨a', ha'⟩ := mkChildren_fresh g s ac hac
  rw [ha']
  rfl

/-- The UCT loop, run `k` times under the game contract from an
invariant tree: it succeeds, preserves the invariant, keeps the root's
state and child actions, and adds exactly one visit to the root's
children per iteration — or none when the root is terminal. -/
theorem uctLoop_spec (g : Game S A) (sq : Nat → Nat → ℚ) (pe : Nat → Nat)
    (ps : Nat → Nat → Nat) (Hc : Contract g) :
    ∀ (k idx fuel h : Nat) (t : MCTree S A),
    TreeInv g t →
    (g.is_terminal t.state = true ∨ ChildrenOK g t) →
    HeightLe t h → h + k ≤ fuel →
    ∃ t' c, uctLoop g sq pe ps fuel k idx t = some (t', c) ∧
      TreeInv g t' ∧ HeightLe t' (h + k) ∧
      t'.state = t.state ∧
      t'.children.map Prod.fst = t.children.map Prod.fst ∧
      sumRootN t' = sumRootN t +
        (if g.is_terminal t.state = true then 0 else k) := by
  intro k
  induction k with
  | zero =>
    intro idx fuel h t hInv hRoot ht _
    refine ⟨t, 0, rfl, hInv, by simpa using ht, rfl, rfl, ?_⟩
    cases g.is_terminal t.state <;> simp
  | succ k ih =>
    intro idx fuel h t hInv hRoot ht hle
    obtain ⟨t₁, b, hiter, hInv1, hH1, hst1, hmap1, hsum1⟩ :=
      uctIter_spec g sq (pe idx) (ps idx) fuel h t Hc hInv hRoot ht (by omega)
    have hRoot1 : g.is_terminal t₁.state = true ∨ ChildrenOK g t₁ := by
      rcases hRoot with hh | hh
      · left
        rw [hst1]
        exact hh
      · right
        simp only [ChildrenOK] at hh ⊢
        rw [hmap1, hst1]
        exact hh
    obtain ⟨t', c, hloop, hInv', hH', hst', hmap', hsum'⟩ :=
      ih (idx + 1) fuel (h + 1) t₁ hInv1 hRoot1 hH1 (by omega)
    refine ⟨t', c + (if b then 1 else 0), ?_, hInv', ?_, ?_, ?_, ?_⟩
    · simp [uctLoop, hiter, hloop]
    · have : h + 1 + k = h + (k + 1) := by omega
      rw [← this]
      exact hH'
    · rw [hst', hst1]
    · rw [hmap', hmap1]
    · rw [hsum', hsum1, hst1]
      cases hrt : g.is_terminal t.state
      · simp
        omega
      · simp

/-- C7, amended: after `N` iterations of the UCT loop on a non-terminal
root (exactly as `uct` invokes it for budget `N`), the sum of
`visit_count` over the root's direct children equals `N` exactly.
Every iteration backpropagates through exactly one direct child of the
root: an iteration whose expansion hits an already-terminal leaf still
walks up through that leaf's root-child ancestor, so such iterations
are not subtracted. -/
theorem claim7_visit_sum_amended (g : Game S A) (sq : Nat → Nat → ℚ)
    (pe : Nat → Nat) (ps : Nat → Nat → Nat) (N : Nat) (s : S)
    (Hc : Contract g) (hs : g.is_terminal s = false) :
    ∃ t' c, uctLoop g sq pe ps (N + 2) N 0 (initTree g s) = some (t', c) ∧
      sumRootN t' = N := by
  obtain ⟨t', c, hloop, -, -, -, -, hsum⟩ :=
    uctLoop_spec g sq pe ps Hc N 0 (N + 2) 2 (initTree g s)
      (initTree_TreeInv g s) (Or.inr (initTree_ChildrenOK g s))
      (initTree_HeightLe g s) (by omega)
  refine ⟨t', c, hloop, ?_⟩
  rw [hsum, initTree_sumRootN]
  simp [initTree, MCTree.state, hs]

/-- Witness for C7 (amended) on `cg10` with `N = 2`. -/
theorem claim7_visit_sum_amended_witness :
    (uctLoop cg10 (fun _ _ => 0) (fun _ => 0) (fun _ _ => 0) 4 2 0
      (initTree cg10 0)).map (fun r => sumRootN r.1) = some 2 := by
  have hc : Contract cg10 := by
    intro s h
    have hs : s = 0 := by
      by_contra hne
      simp [cg10, hne] at h
    subst hs
    simp [cg10]
  obtain ⟨t', c, hloop, hsum⟩ :=
    claim7_visit_sum_amended cg10 (fun _ _ => 0) (fun _ => 0) (fun _ _ => 0)
      2 0 hc (by simp [cg10])
  rw [hloop]
  simp [hsum]

/-- C5, amended: calling the UCT searcher with a terminal root state
(no legal actions, per the game contract) raises: the loop itself runs
fine, but `max(root.children, key=...)` is applied to the empty root
children mapping and throws `ValueError` — the searcher crashes rather
than returning or signalling the absence of an action. -/
theorem claim5_uct_terminal_errors (g : Game S A) (sq : Nat → Nat → ℚ)
    (pe : Nat → Nat) (ps : Nat → Nat → Nat) (N : Nat) (s : S)
    (Hc : Contract g) (hterm : g.is_terminal s = true)
    (hact : g.actions s = []) :
    uct g sq pe ps N s = .error "ValueError: max() arg is an empty sequence" := by
  have hinit : initTree g s = .node s 0 0 [] := by
    simp [initTree, mkChildren, hact]
  obtain ⟨t', c, hloop, -, -, -, hmap, -⟩ :=
    uctLoop_spec g sq pe ps Hc N 0 (N + 2) 2 (initTree g s)
      (initTree_TreeInv g s) (Or.inl (by simpa [initTree, MCTree.state] using hterm))
      (initTree_HeightLe g s) (by omega)
  have hnil : t'.children = [] := by
    have : t'.children.map Prod.fst = [] := by
      rw [hmap, hinit]
      rfl
    exact List.map_eq_nil_iff.1 this
  simp [uct, hloop, hnil, maxByN]

/-- Witness for C5 (amended) on the all-terminal game `cg5`. -/
theorem claim5_uct_terminal_errors_witness :
    uct cg5 (fun _ _ => 0) (fun _ => 0) (fun _ _ => 0) 3 1 =
      .error "ValueError: max() arg is an empty sequence" :=
  claim5_uct_terminal_errors cg5 (fun _ _ => 0) (fun _ => 0) (fun _ _ => 0) 3 1
    (fun s h => by simp [cg5] at h) rfl rfl

/-- The `max(..., key=lambda n: n.N)` fold keeps its first argument
when no scanned element strictly exceeds it. -/
theorem maxByN_foldl_const (x : A × MCTree S A) (xs : List (A × MCTree S A))
    (hx : x.2.visits = 0) (hxs : ∀ y ∈ xs, y.2.visits = 0) :
    xs.foldl (fun b y => if b.2.visits < y.2.visits then y else b) x = x := by
  induction xs with
  | nil => rfl
  | cons y ys ih =>
    have hy : y.2.visits = 0 := hxs y (by simp)
    have hstep : (if x.2.visits < y.2.visits then y else x) = x := by
      rw [hx, hy]
      simp
    simp only [List.foldl_cons, hstep]
    exact ih (fun z hz => hxs z (by simp [hz]))

/-- C10: calling the UCT searcher with an iteration budget of zero on a
non-terminal root with at least one legal action returns a legal action
without throwing — the first-listed action, chosen among the
eagerly-generated root children carrying no simulated statistics (ties
on `visit_count = 0` keep the first-encountered child). -/
theorem claim10_uct_zero_budget (g : Game S A) (sq : Nat → Nat → ℚ)
    (pe : Nat → Nat) (ps : Nat → Nat → Nat) (s : S) (a : A) (rest : List A)
    (hact : g.actions s = a :: rest) :
    uct g sq pe ps 0 s = .ok a ∧ a ∈ g.actions s := by
  constructor
  · have hchildren : (initTree g s).children =
        (a, MCTree.node (g.result s a) 0 0 []) ::
          rest.map (fun a' => (a', MCTree.node (g.result s a') 0 0 [])) := by
      simp [initTree, MCTree.children, mkChildren, hact]
    have hfold := maxByN_foldl_const
      ((a, MCTree.node (g.result s a) 0 0 []))
      (rest.map (fun a' => (a', MCTree.node (g.result s a') 0 0 [])))
      rfl
      (by
        intro y hy
        simp only [List.mem_map] at hy
        obtain ⟨a', -, rfl⟩ := hy
        rfl)
    simp [uct, uctLoop, maxByN, hchildren, hfold]
  · rw [hact]
    exact List.mem_cons_self a rest

/-- Witness for C10 on the game `cg10`, whose root has exactly the
three legal actions `[7, 8, 9]`. -/
theorem claim10_uct_zero_budget_witness :
    uct cg10 (fun _ _ => 0) (fun _ => 0) (fun _ _ => 0) 0 0 = .ok 7 ∧
      (7 : Nat) ∈ cg10.actions 0 :=
  claim10_uct_zero_budget cg10 (fun _ _ => 0) (fun _ => 0) (fun _ _ => 0)
    0 7 [8, 9] rfl

/-- An expansion either returns the tree unchanged or populates one
node's children in place. -/
theorem expand_inv (g : Game S A) (pick : Nat) (t : MCTree S A)
    (p : List Nat) (pt : List Nat × MCTree S A)
    (h : expand g pick t p = some pt) :
    pt.2 = t ∨ ∃ q, pt.2 = updateAt t q (popFn g) := by
  simp only [expand, bind, pure, Option.bind_eq_some] at h
  obtain ⟨nd, -, h2⟩ := h
  split at h2
  · exact Or.inl (congrArg Prod.snd (Option.some_inj.1 h2)).symm
  · split at h2
    · cases h2
    · exact Or.inr ⟨_, (congrArg Prod.snd (Option.some_inj.1 h2)).symm⟩

/-- One UCT iteration preserves the statistics invariant whenever raw
utilities are at most one (so the clamped simulation outcome lies in
`[0, 1]`). -/
theorem uctIter_stats (g : Game S A) (sq : Nat → Nat → ℚ) (pe : Nat)
    (ps : Nat → Nat) (fuel : Nat) (t t' : MCTree S A) (b : Bool)
    (Hu : ∀ (s' : S) (p' : Nat), g.utility s' p' ≤ 1)
    (hA : StatsOK t)
    (h : uctIter g sq pe ps fuel t = some (t', b)) : StatsOK t' := by
  simp only [uctIter, bind, pure, Option.bind_eq_some] at h
  obtain ⟨p, -, leaf, -, pt, hpt, child, -, res, hres, heq⟩ := h
  have ht' : t' = back_propagate res pt.2 pt.1 :=
    (congrArg Prod.fst (Option.some_inj.1 heq)).symm
  rw [ht']
  have hA2 : StatsOK pt.2 := by
    rcases expand_inv g pe t p pt hpt with hh | ⟨q, hh⟩
    · rw [hh]
      exact hA
    · rw [hh]
      exact updateAt_AllNodes StatsP_respects (popFn g) q t hA
        (fun x hx => popFn_Stats g x (AllNodes_getNode q hA hx))
  have hres1 : res ≤ 1 := by
    simp only [simulate, Option.map_eq_some'] at hres
    obtain ⟨fs, -, rfl⟩ := hres
    exact Hu fs _
  exact backPropAux_Stats (max 0 res) pt.1 pt.2 (le_max_left 0 res)
    (max_le (by norm_num) hres1) hA2

/-- The whole UCT loop preserves the statistics invariant whenever raw
utilities are at most one. -/
theorem uctLoop_stats (g : Game S A) (sq : Nat → Nat → ℚ) (pe : Nat → Nat)
    (ps : Nat → Nat → Nat) (fuel : Nat)
    (Hu : ∀ (s' : S) (p' : Nat), g.utility s' p' ≤ 1) :
    ∀ (k idx : Nat) (t t' : MCTree S A) (c : Nat),
    StatsOK t → uctLoop g sq pe ps fuel k idx t = some (t', c) →
    StatsOK t' := by
  intro k
  induction k with
  | zero =>
    intro idx t t' c hA h
    have ht' : t' = t := (congrArg Prod.fst (Option.some_inj.1 h)).symm
    rw [ht']
    exact hA
  | succ k ih =>
    intro idx t t' c hA h
    simp only [uctLoop, bind, pure, Option.bind_eq_some] at h
    obtain ⟨r, hr, rest, hrest, heq⟩ := h
    have ht' : t' = rest.1 := (congrArg Prod.fst (Option.some_inj.1 heq)).symm
    rw [ht']
    exact ih (idx + 1) r.1 rest.1 rest.2
      (uctIter_stats g sq (pe idx) (ps idx) fuel t r.1 r.2 Hu hA (by
        rw [← hr])) hrest

/-- C6: every node of the UCT tree — after initialization, after every
expansion, and after every iteration of the loop — has `visit_count` a
non-negative integer (a `Nat` in this model), `accumulated_reward` in
`[0, visit_count]` provided raw utilities are at most one, and
`visit_count = 0` only with the untouched initial reward zero (every
backpropagation that touches a node increments its visit count, so an
unvisited node has never been backpropagated into); the UCB1 score of
an unvisited node is positive infinity. -/
theorem claim6_uct_stats_invariant (g : Game S A) (sq : Nat → Nat → ℚ)
    (pe : Nat → Nat) (ps : Nat → Nat → Nat) (k idx fuel : Nat) (s : S)
    (t' : MCTree S A) (c : Nat)
    (Hu : ∀ (s' : S) (p' : Nat), g.utility s' p' ≤ 1)
    (hloop : uctLoop g sq pe ps fuel k idx (initTree g s) = some (t', c)) :
    StatsOK (initTree g s) ∧
    StatsOK t' ∧
    (∀ (pick : Nat) (t₂ : MCTree S A) (p : List Nat)
      (pt : List Nat × MCTree S A), StatsOK t₂ →
      expand g pick t₂ p = some pt → StatsOK pt.2) ∧
    (∀ (pN : Nat) (u' : ℚ), UCB1 sq pN 0 u' = ⊤) := by
  refine ⟨initTree_Stats g s, ?_, ?_, ?_⟩
  · exact uctLoop_stats g sq pe ps fuel Hu k idx (initTree g s) t' c
      (initTree_Stats g s) hloop
  · intro pick t₂ p pt hA hexp
    rcases expand_inv g pick t₂ p pt hexp with hh | ⟨q, hh⟩
    · rw [hh]
      exact hA
    · rw [hh]
      exact updateAt_AllNodes StatsP_respects (popFn g) q t₂ hA
        (fun x hx => popFn_Stats g x (AllNodes_getNode q hA hx))
  · intro pN u'
    exact (UCB1_eq_top sq pN 0 u').2 rfl

/-- Witness for C6: the fresh tree of `cg10` satisfies the statistics
invariant (the degenerate zero-iteration loop run), and a concrete
unvisited node's UCB1 score is infinite. -/
theorem claim6_uct_stats_invariant_witness :
    StatsOK (initTree cg10 0) ∧
    UCB1 (fun _ _ => 0) 5 0 (3 / 2) = ⊤ := by
  have h := claim6_uct_stats_invariant cg10 (fun _ _ => 0) (fun _ => 0)
    (fun _ _ => 0) 0 0 2 0 (initTree cg10 0) 0
    (fun s' p' => by simp [cg10]) rfl
  exact ⟨h.1, h.2.2.2 5 (3 / 2)⟩

/-! ### Pruning correctness of the contest searcher

The claims' reference implementation `AI.max_value`/`AI.min_value` in
`template_contest.py` is the textbook algorithm; the following
development proves the spec's pruning-correctness property for it: with
the evaluation noise disabled, the action it chooses equals the action
chosen by unpruned full depth-limited minimax. -/

/-- Finite extended values compare like their rationals. -/
theorem toEVal_le_toEVal {a b : ℚ} : toEVal a ≤ toEVal b ↔ a ≤ b := by
  simp [toEVal]

/-- Finite extended values compare strictly like their rationals. -/
theorem toEVal_lt_toEVal {a b : ℚ} : toEVal a < toEVal b ↔ a < b := by
  simp [toEVal]

/-- Minus infinity is below every finite value. -/
theorem bot_lt_toEVal (q : ℚ) : (⊥ : EVal) < toEVal q :=
  WithBot.bot_lt_coe _

/-- Every finite value is below plus infinity. -/
theorem toEVal_lt_top (q : ℚ) : toEVal q < (⊤ : EVal) :=
  WithBot.coe_lt_coe.mpr (WithTop.coe_lt_top q)

/-- The searcher's `float("inf")` is the top extended value. -/
theorem evTop_eq_top : evTop = (⊤ : EVal) := rfl

/-- The conditional update of the running maximum is the lattice join. -/
theorem ite_lt_sup (v r : EVal) : (if v < r then r else v) = v ⊔ r := by
  rcases le_or_lt r v with h | h
  · rw [if_neg (not_lt.mpr h), sup_eq_left.mpr h]
  · rw [if_pos h, sup_eq_right.mpr h.le]

/-- The conditional update of the running minimum is the lattice meet. -/
theorem ite_lt_inf (v r : EVal) : (if r < v then r else v) = v ⊓ r := by
  rcases le_or_lt v r with h | h
  · rw [if_neg (not_lt.mpr h), inf_eq_left.mpr h]
  · rw [if_pos h, inf_eq_right.mpr h.le]

/-- Unfolding equation of the minimax action loop on a non-empty list. -/
theorem mmLoop_cons (call : S → Option (EVal × Option A)) (g : Game S A)
    (s : S) (gt : Bool) (a : A) (rest : List A) (v : EVal) (mv : Option A) :
    mmLoop call g s gt (a :: rest) v mv =
      (call (g.result s a)).bind (fun p =>
        if (if gt then v < p.1 else p.1 < v) then
          mmLoop call g s gt rest p.1 (some a)
        else
          mmLoop call g s gt rest v mv) := rfl

/-- Unfolding equation of the contest max-value loop on a non-empty
list, with the inner call's result and both update branches spelled
out. -/
theorem cMaxLoop_cons
    (call : ShobuLike A → EVal → EVal → Nat → Option (EVal × Option A × Nat))
    (g : Game (ShobuLike A) A) (s : ShobuLike A) (a : A) (rest : List A)
    (v : EVal) (move : Option A) (alpha beta : EVal) (ctr : Nat)
    (rv : EVal) (rm : Option A) (rc : Nat)
    (hcall : call (g.result s a) alpha beta ctr = some (rv, rm, rc)) :
    cMaxLoop call g s (a :: rest) v move alpha beta ctr =
      (if v < rv then
        (if beta ≤ rv then some (rv, some a, rc)
         else cMaxLoop call g s rest rv (some a) (max alpha rv) beta rc)
       else
        (if beta ≤ v then some (v, move, rc)
         else cMaxLoop call g s rest v move alpha beta rc)) := by
  by_cases h : v < rv <;> simp [cMaxLoop, hcall, h]

/-- Unfolding equation of the contest min-value loop on a non-empty
list, with the inner call's result and both update branches spelled
out. -/
theorem cMinLoop_cons
    (call : ShobuLike A → EVal → EVal → Nat → Option (EVal × Option A × Nat))
    (g : Game (ShobuLike A) A) (s : ShobuLike A) (a : A) (rest : List A)
    (v : EVal) (move : Option A) (alpha beta : EVal) (ctr : Nat)
    (rv : EVal) (rm : Option A) (rc : Nat)
    (hcall : call (g.result s a) alpha beta ctr = some (rv, rm, rc)) :
    cMinLoop call g s (a :: rest) v move alpha beta ctr =
      (if rv < v then
        (if rv ≤ alpha then some (rv, some a, rc)
         else cMinLoop call g s rest rv (some a) alpha (min beta rv) rc)
       else
        (if v ≤ alpha then some (v, move, rc)
         else cMinLoop call g s rest v move alpha beta rc)) := by
  by_cases h : rv < v <;> simp [cMinLoop, hcall, h]

/-- The minimax loop only moves its running value toward better, and
only ever assigns finite values to it. -/
theorem mmLoop_shape (callM : ShobuLike A → Option (EVal × Option A))
    (g : Game (ShobuLike A) A) (s : ShobuLike A) (gt : Bool) :
    ∀ (l : List A) (v : EVal) (mv : Option A),
    (∀ a ∈ l, ∃ e mva, callM (g.result s a) = some (toEVal e, mva)) →
    ∃ v' mv', mmLoop callM g s gt l v mv = some (v', mv') ∧
      (if gt then v ≤ v' else v' ≤ v) ∧
      (v' = v ∨ ∃ q, v' = toEVal q) := by
  intro l
  induction l with
  | nil =>
    intro v mv _
    refine ⟨v, mv, rfl, ?_, Or.inl rfl⟩
    cases gt <;> simp
  | cons a l' ih =>
    intro v mv Htot
    obtain ⟨e, mva, hcall⟩ := Htot a (by simp)
    have Htot' : ∀ b ∈ l', ∃ e' mvb, callM (g.result s b) = some (toEVal e', mvb) :=
      fun b hb => Htot b (by simp [hb])
    by_cases hupd : (if gt then v < toEVal e else toEVal e < v)
    · obtain ⟨v', mv', hrec, hdir, hshape⟩ := ih (toEVal e) (some a) Htot'
      refine ⟨v', mv', ?_, ?_, ?_⟩
      · rw [mmLoop_cons, hcall, Option.some_bind, if_pos hupd]
        exact hrec
      · cases gt with
        | true =>
          simp only [if_true] at hdir hupd ⊢
          exact le_trans (le_of_lt hupd) hdir
        | false =>
          simp only [Bool.false_eq_true, if_false] at hdir hupd ⊢
          exact le_trans hdir (le_of_lt hupd)
      · rcases hshape with h | h
        · exact Or.inr ⟨e, h⟩
        · exact Or.inr h
    · obtain ⟨v', mv', hrec, hdir, hshape⟩ := ih v mv Htot'
      refine ⟨v', mv', ?_, hdir, hshape⟩
      rw [mmLoop_cons, hcall, Option.some_bind, if_neg hupd]
      exact hrec

/-- Every extended value is minus infinity, plus infinity, or finite. -/
theorem eval_cases (x : EVal) : x = ⊥ ∨ x = ⊤ ∨ ∃ q, x = toEVal q := by
  induction x using WithBot.recBotCoe with
  | bot => exact Or.inl rfl
  | coe y =>
    induction y using WithTop.recTopCoe with
    | top => exact Or.inr (Or.inl rfl)
    | coe q => exact Or.inr (Or.inr ⟨q, rfl⟩)

/-- The join of finite extended values is finite. -/
theorem toEVal_sup (a b : ℚ) : toEVal a ⊔ toEVal b = toEVal (max a b) := by
  rcases le_total a b with h | h
  · rw [sup_eq_right.mpr (toEVal_le_toEVal.mpr h), max_eq_right h]
  · rw [sup_eq_left.mpr (toEVal_le_toEVal.mpr h), max_eq_left h]

/-- The meet of finite extended values is finite. -/
theorem toEVal_inf (a b : ℚ) : toEVal a ⊓ toEVal b = toEVal (min a b) := by
  rcases le_total a b with h | h
  · rw [inf_eq_left.mpr (toEVal_le_toEVal.mpr h), min_eq_left h]
  · rw [inf_eq_right.mpr (toEVal_le_toEVal.mpr h), min_eq_right h]

/-- Unfolding equation of the minimax action loop in maximizing mode on
a non-empty list, given the recursive call's result. -/
theorem mmLoop_true_cons (call : S → Option (EVal × Option A)) (g : Game S A)
    (s : S) (a : A) (rest : List A) (v : EVal) (mv : Option A)
    (e : EVal) (mve : Option A) (hcall : call (g.result s a) = some (e, mve)) :
    mmLoop call g s true (a :: rest) v mv =
      (if v < e then mmLoop call g s true rest e (some a)
       else mmLoop call g s true rest v mv) := by
  by_cases h : v < e <;> simp [mmLoop, hcall, h]

/-- Unfolding equation of the minimax action loop in minimizing mode on
a non-empty list, given the recursive call's result. -/
theorem mmLoop_false_cons (call : S → Option (EVal × Option A)) (g : Game S A)
    (s : S) (a : A) (rest : List A) (v : EVal) (mv : Option A)
    (e : EVal) (mve : Option A) (hcall : call (g.result s a) = some (e, mve)) :
    mmLoop call g s false (a :: rest) v mv =
      (if e < v then mmLoop call g s false rest e (some a)
       else mmLoop call g s false rest v mv) := by
  by_cases h : e < v <;> simp [mmLoop, hcall, h]

/-- A successful evaluation makes the minimax leaf return the finite
score with the action `None`. -/
theorem tLeaf_some (ev : S → Option ℚ) (s : S) (e : ℚ) (he : ev s = some e) :
    tLeaf ev s = some ((toEVal e : EVal), (none : Option A)) := by
  simp [tLeaf, he]

/-- With the noise stream identically zero, the contest leaf returns
the bare evaluation score: `score + 0 * 0.01 * score = score`. -/
theorem cLeaf_zero_noise (player C : Nat) (s : ShobuLike A) (ctr : Nat)
    (e : ℚ) (he : cEval player C s = some e) :
    cLeaf player C (fun _ => 0) s ctr = some (toEVal e, none, ctr + 1) := by
  simp [cLeaf, he]

/-- Unfolding equation of the minimax value recursion at depth zero. -/
theorem mmMM_zero (g : Game S A) (ev : S → Option ℚ) (isMax : Bool) (s : S) :
    mmMM g ev 0 isMax s = tLeaf ev s := rfl

/-- Unfolding equation of the minimax value recursion at a positive
remaining depth. -/
theorem mmMM_succ (g : Game S A) (ev : S → Option ℚ) (f : Nat) :
    mmMM g ev (f + 1) = fun isMax s =>
      if g.is_terminal s = true then tLeaf ev s
      else if isMax then
        mmLoop (fun s' => mmMM g ev f false s') g s true (g.actions s) ⊥ none
      else
        mmLoop (fun s' => mmMM g ev f true s') g s false (g.actions s) evTop none := rfl

/-- Unfolding equation of the contest searcher's value recursion at
depth zero. -/
theorem cMM_zero (g : Game (ShobuLike A) A) (player C : Nat)
    (noise : Nat → ℚ) (isMax : Bool) (s : ShobuLike A) (alpha beta : EVal)
    (ctr : Nat) :
    cMM g player C noise 0 isMax s alpha beta ctr = cLeaf player C noise s ctr := rfl

/-- The classical alpha-beta window lemma for the max-value loop,
relating the contest loop to the unpruned minimax loop over the same
action list.  `callM` / `callC` are the recursive calls for the
children; the hypothesis on them is the induction hypothesis of
`cMM_minimax_rel`.  The invariant carried through the fold: both
running values stay below `beta`, the loop's alpha argument is
`alpha ⊔ v`, and below resp. inside the window the contest value
tracks the minimax value.  The conclusion is the fail-soft window
characterization of the final values. -/
theorem maxFold_rel (g : Game (ShobuLike A) A) (s : ShobuLike A)
    (callM : ShobuLike A → Option (EVal × Option A))
    (callC : ShobuLike A → EVal → EVal → Nat → Option (EVal × Option A × Nat))
    (al be : EVal) (hαβ : al < be) :
    ∀ (l : List A),
    (∀ a ∈ l, ∀ (a' b' : EVal) (c0 : Nat), a' < b' →
      ∃ m mvm rv rm c1,
        callM (g.result s a) = some (toEVal m, mvm) ∧
        callC (g.result s a) a' b' c0 = some (rv, rm, c1) ∧
        (toEVal m ≤ a' → rv ≤ a' ∧ toEVal m ≤ rv) ∧
        (b' ≤ toEVal m → b' ≤ rv ∧ rv ≤ toEVal m) ∧
        (a' < toEVal m → toEVal m < b' → rv = toEVal m)) →
    ∀ (vm v : EVal) (mvm mv : Option A) (ctr : Nat),
      v < be → vm < be →
      (vm ≤ al → v ≤ al ∧ vm ≤ v) →
      (al < vm → v = vm) →
      ∃ vm' mvm' v' mv' ctr',
        mmLoop callM g s true l vm mvm = some (vm', mvm') ∧
        cMaxLoop callC g s l v mv (al ⊔ v) be ctr = some (v', mv', ctr') ∧
        vm ≤ vm' ∧
        (vm' = vm ∨ ∃ q, vm' = toEVal q) ∧
        (l ≠ [] → ∃ q, vm' = toEVal q) ∧
        (vm' ≤ al → v' ≤ al ∧ vm' ≤ v') ∧
        (al < vm' → vm' < be → v' = vm') ∧
        (be ≤ vm' → be ≤ v' ∧ v' ≤ vm') := by
  intro l
  induction l with
  | nil =>
    intro _ vm v mvm mv ctr hvβ hvmβ hI1 hI2
    refine ⟨vm, mvm, v, mv, ctr, rfl, rfl, le_refl vm, Or.inl rfl,
      fun h => absurd rfl h, hI1, fun h1 _ => hI2 h1,
      fun h => absurd h (not_le.mpr hvmβ)⟩
  | cons a l' ih =>
    intro HC vm v mvm mv ctr hvβ hvmβ hI1 hI2
    have HC' := fun b hb => HC b (List.mem_cons_of_mem a hb)
    have hsup : al ⊔ v < be := sup_lt_iff.mpr ⟨hαβ, hvβ⟩
    obtain ⟨m, mvma, rv, rm, c1, hM, hCc, hlow, hhigh, hex⟩ :=
      HC a (List.mem_cons_self a l') (al ⊔ v) be ctr hsup
    have hvm_ne_top : vm ≠ ⊤ := lt_top_iff_ne_top.mp (lt_of_lt_of_le hvmβ le_top)
    have hvm1_fin : ∃ q', vm ⊔ toEVal m = toEVal q' := by
      rcases eval_cases vm with h | h | ⟨q, h⟩
      · exact ⟨m, by rw [h, bot_sup_eq]⟩
      · exact absurd h hvm_ne_top
      · exact ⟨max q m, by rw [h, toEVal_sup]⟩
    have hmmstep : mmLoop callM g s true (a :: l') vm mvm =
        mmLoop callM g s true l' (vm ⊔ toEVal m)
          (if vm < toEVal m then some a else mvm) := by
      rcases lt_or_le vm (toEVal m) with h | h
      · rw [mmLoop_true_cons callM g s a l' vm mvm (toEVal m) mvma hM,
          if_pos h, if_pos h, sup_eq_right.mpr h.le]
      · rw [mmLoop_true_cons callM g s a l' vm mvm (toEVal m) mvma hM,
          if_neg (not_lt.mpr h), if_neg (not_lt.mpr h), sup_eq_left.mpr h]
    rcases le_or_lt be (toEVal m) with hCse | hmβ
    · -- fail high: the contest loop cuts off, minimax keeps folding
      obtain ⟨hβrv, hrvm⟩ := hhigh hCse
      have hv_rv : v < rv := lt_of_lt_of_le hvβ hβrv
      have hceq : cMaxLoop callC g s (a :: l') v mv (al ⊔ v) be ctr =
          some (rv, some a, c1) := by
        rw [cMaxLoop_cons callC g s a l' v mv (al ⊔ v) be ctr rv rm c1 hCc,
          if_pos hv_rv, if_pos hβrv]
      have hvm_m : vm < toEVal m := lt_of_lt_of_le hvmβ hCse
      have Htot' : ∀ b ∈ l', ∃ e mvb, callM (g.result s b) = some (toEVal e, mvb) := by
        intro b hb
        obtain ⟨e, mvb, rv', rm', c1', hMb, -, -, -, -⟩ := HC' b hb al be 0 hαβ
        exact ⟨e, mvb, hMb⟩
      obtain ⟨vm', mvm', hmmrec, hdir, hshape⟩ :=
        mmLoop_shape callM g s true l' (toEVal m) (some a) Htot'
      have hdir' : toEVal m ≤ vm' := by simpa using hdir
      have hfin : ∃ q, vm' = toEVal q := by
        rcases hshape with h | h
        · exact ⟨m, h⟩
        · exact h
      refine ⟨vm', mvm', rv, some a, c1, ?_, hceq, le_trans hvm_m.le hdir',
        Or.inr hfin, fun _ => hfin, ?_, ?_, ?_⟩
      · rw [hmmstep, sup_eq_right.mpr hvm_m.le, if_pos hvm_m]
        exact hmmrec
      · intro h
        exact absurd (lt_of_le_of_lt (le_trans hCse (le_trans hdir' h)) hαβ)
          (lt_irrefl be)
      · intro _ h2
        exact absurd h2 (not_lt.mpr (le_trans hCse hdir'))
      · intro _
        exact ⟨hβrv, le_trans hrvm hdir'⟩
    · -- the child's minimax value is below beta: no cutoff, keep folding
      have hrvβ : rv < be := by
        rcases le_or_lt (toEVal m) (al ⊔ v) with hA | hAB
        · exact lt_of_le_of_lt (hlow hA).1 hsup
        · rw [hex hAB hmβ]
          exact hmβ
      have hcstep : cMaxLoop callC g s (a :: l') v mv (al ⊔ v) be ctr =
          cMaxLoop callC g s l' (v ⊔ rv) (if v < rv then some a else mv)
            (al ⊔ (v ⊔ rv)) be c1 := by
        rcases lt_or_le v rv with h | h
        · rw [cMaxLoop_cons callC g s a l' v mv (al ⊔ v) be ctr rv rm c1 hCc,
            if_pos h, if_neg (not_le.mpr hrvβ), if_pos h, sup_assoc,
            sup_eq_right.mpr h.le]
        · rw [cMaxLoop_cons callC g s a l' v mv (al ⊔ v) be ctr rv rm c1 hCc,
            if_neg (not_lt.mpr h), if_neg (not_le.mpr hvβ),
            if_neg (not_lt.mpr h), sup_eq_left.mpr h]
      have key : v ⊔ rv < be → vm ⊔ toEVal m < be →
          (vm ⊔ toEVal m ≤ al → v ⊔ rv ≤ al ∧ vm ⊔ toEVal m ≤ v ⊔ rv) →
          (al < vm ⊔ toEVal m → v ⊔ rv = vm ⊔ toEVal m) →
          ∃ vm' mvm' v' mv' ctr',
            mmLoop callM g s true (a :: l') vm mvm = some (vm', mvm') ∧
            cMaxLoop callC g s (a :: l') v mv (al ⊔ v) be ctr =
              some (v', mv', ctr') ∧
            vm ≤ vm' ∧
            (vm' = vm ∨ ∃ q, vm' = toEVal q) ∧
            (a :: l' ≠ [] → ∃ q, vm' = toEVal q) ∧
            (vm' ≤ al → v' ≤ al ∧ vm' ≤ v') ∧
            (al < vm' → vm' < be → v' = vm') ∧
            (be ≤ vm' → be ≤ v' ∧ v' ≤ vm') := by
        intro hv1β hvm1β hI1' hI2'
        obtain ⟨vm', mvm', v', mv', ctr', hmmrec, hcrec, hge, hshape, -,
          hF1, hF2, hF3⟩ :=
          ih HC' (vm ⊔ toEVal m) (v ⊔ rv) (if vm < toEVal m then some a else mvm)
            (if v < rv then some a else mv) c1 hv1β hvm1β hI1'
            (fun h => hI2' h)
        obtain ⟨q', hq'⟩ := hvm1_fin
        have hfin : ∃ q, vm' = toEVal q := by
          rcases hshape with h | h
          · exact ⟨q', h.trans hq'⟩
          · exact h
        refine ⟨vm', mvm', v', mv', ctr', ?_, ?_, le_trans le_sup_left hge,
          Or.inr hfin, fun _ => hfin, hF1, hF2, hF3⟩
        · rw [hmmstep]
          exact hmmrec
        · rw [hcstep]
          exact hcrec
      rcases le_or_lt (toEVal m) (al ⊔ v) with hA | hAB
      · -- fail low for this child
        obtain ⟨hrv_le, hm_rv⟩ := hlow hA
        refine key (sup_lt_iff.mpr ⟨hvβ, lt_of_le_of_lt hrv_le hsup⟩)
          (sup_lt_iff.mpr ⟨hvmβ, lt_of_le_of_lt hA hsup⟩) ?_ ?_
        · intro h
          have hvma : vm ≤ al := le_trans le_sup_left h
          have hma : toEVal m ≤ al := le_trans le_sup_right h
          obtain ⟨hva, hvmv⟩ := hI1 hvma
          have hrva : rv ≤ al := (sup_eq_left.mpr hva) ▸ hrv_le
          exact ⟨sup_le hva hrva,
            sup_le (le_trans hvmv le_sup_left) (le_trans hm_rv le_sup_right)⟩
        · intro h
          rcases le_or_lt vm al with hvma | hvma
          · have hma : al < toEVal m := by
              by_contra hc
              push_neg at hc
              exact absurd (sup_le hvma hc) (not_le.mpr h)
            obtain ⟨hva, -⟩ := hI1 hvma
            rw [sup_eq_left.mpr hva] at hA
            exact absurd hA (not_le.mpr hma)
          · have hveq := hI2 hvma
            have hαv : al ⊔ v = v := sup_eq_right.mpr (le_of_lt (hveq ▸ hvma))
            rw [hαv] at hA hrv_le
            have h1 : v ⊔ rv = v := sup_eq_left.mpr hrv_le
            have h2 : vm ⊔ toEVal m = vm := sup_eq_left.mpr (hveq ▸ hA)
            rw [h1, h2, hveq]
      · -- exact window for this child
        have hrveq : rv = toEVal m := hex hAB hmβ
        have hv_m : v < toEVal m := lt_of_le_of_lt le_sup_right hAB
        have hα_m : al < toEVal m := lt_of_le_of_lt le_sup_left hAB
        have hvm_m : vm < toEVal m := by
          rcases le_or_lt vm al with h | h
          · exact lt_of_le_of_lt h hα_m
          · exact (hI2 h) ▸ hv_m
        have hsupv : v ⊔ rv = toEVal m := by
          rw [hrveq, sup_eq_right.mpr hv_m.le]
        have hsupvm : vm ⊔ toEVal m = toEVal m := sup_eq_right.mpr hvm_m.le
        refine key (by rw [hsupv]; exact hmβ) (by rw [hsupvm]; exact hmβ) ?_ ?_
        · intro h
          rw [hsupvm] at h
          exact absurd h (not_le.mpr hα_m)
        · intro _
          rw [hsupv, hsupvm]

/-- The classical alpha-beta window lemma for the min-value loop, dual
to `maxFold_rel`: the running values stay above `alpha`, the loop's
beta argument is `beta ⊓ v`, and the same fail-soft window
characterization holds for the final values. -/
theorem minFold_rel (g : Game (ShobuLike A) A) (s : ShobuLike A)
    (callM : ShobuLike A → Option (EVal × Option A))
    (callC : ShobuLike A → EVal → EVal → Nat → Option (EVal × Option A × Nat))
    (al be : EVal) (hαβ : al < be) :
    ∀ (l : List A),
    (∀ a ∈ l, ∀ (a' b' : EVal) (c0 : Nat), a' < b' →
      ∃ m mvm rv rm c1,
        callM (g.result s a) = some (toEVal m, mvm) ∧
        callC (g.result s a) a' b' c0 = some (rv, rm, c1) ∧
        (toEVal m ≤ a' → rv ≤ a' ∧ toEVal m ≤ rv) ∧
        (b' ≤ toEVal m → b' ≤ rv ∧ rv ≤ toEVal m) ∧
        (a' < toEVal m → toEVal m < b' → rv = toEVal m)) →
    ∀ (vm v : EVal) (mvm mv : Option A) (ctr : Nat),
      al < v → al < vm →
      (be ≤ vm → be ≤ v ∧ v ≤ vm) →
      (vm < be → v = vm) →
      ∃ vm' mvm' v' mv' ctr',
        mmLoop callM g s false l vm mvm = some (vm', mvm') ∧
        cMinLoop callC g s l v mv al (be ⊓ v) ctr = some (v', mv', ctr') ∧
        vm' ≤ vm ∧
        (vm' = vm ∨ ∃ q, vm' = toEVal q) ∧
        (l ≠ [] → ∃ q, vm' = toEVal q) ∧
        (vm' ≤ al → v' ≤ al ∧ vm' ≤ v') ∧
        (al < vm' → vm' < be → v' = vm') ∧
        (be ≤ vm' → be ≤ v' ∧ v' ≤ vm') := by
  intro l
  induction l with
  | nil =>
    intro _ vm v mvm mv ctr hαv hαvm hI1 hI2
    refine ⟨vm, mvm, v, mv, ctr, rfl, rfl, le_refl vm, Or.inl rfl,
      fun h => absurd rfl h, fun h => absurd h (not_le.mpr hαvm),
      fun _ h2 => hI2 h2, hI1⟩
  | cons a l' ih =>
    intro HC vm v mvm mv ctr hαv hαvm hI1 hI2
    have HC' := fun b hb => HC b (List.mem_cons_of_mem a hb)
    have hinf : al < be ⊓ v := lt_inf_iff.mpr ⟨hαβ, hαv⟩
    obtain ⟨m, mvma, rv, rm, c1, hM, hCc, hlow, hhigh, hex⟩ :=
      HC a (List.mem_cons_self a l') al (be ⊓ v) ctr hinf
    have hvm_ne_bot : vm ≠ ⊥ :=
      bot_lt_iff_ne_bot.mp (lt_of_le_of_lt bot_le hαvm)
    have hvm1_fin : ∃ q', vm ⊓ toEVal m = toEVal q' := by
      rcases eval_cases vm with h | h | ⟨q, h⟩
      · exact absurd h hvm_ne_bot
      · exact ⟨m, by rw [h, top_inf_eq]⟩
      · exact ⟨min q m, by rw [h, toEVal_inf]⟩
    have hmmstep : mmLoop callM g s false (a :: l') vm mvm =
        mmLoop callM g s false l' (vm ⊓ toEVal m)
          (if toEVal m < vm then some a else mvm) := by
      rcases lt_or_le (toEVal m) vm with h | h
      · rw [mmLoop_false_cons callM g s a l' vm mvm (toEVal m) mvma hM,
          if_pos h, if_pos h, inf_eq_right.mpr h.le]
      · rw [mmLoop_false_cons callM g s a l' vm mvm (toEVal m) mvma hM,
          if_neg (not_lt.mpr h), if_neg (not_lt.mpr h), inf_eq_left.mpr h]
    rcases le_or_lt (toEVal m) al with hCse | hαm
    · -- fail low: the contest loop cuts off, minimax keeps folding
      obtain ⟨hrvα, hm_rv⟩ := hlow hCse
      have hrv_v : rv < v := lt_of_le_of_lt hrvα hαv
      have hceq : cMinLoop callC g s (a :: l') v mv al (be ⊓ v) ctr =
          some (rv, some a, c1) := by
        rw [cMinLoop_cons callC g s a l' v mv al (be ⊓ v) ctr rv rm c1 hCc,
          if_pos hrv_v, if_pos hrvα]
      have hvm_m : toEVal m < vm := lt_of_le_of_lt hCse hαvm
      have Htot' : ∀ b ∈ l', ∃ e mvb, callM (g.result s b) = some (toEVal e, mvb) := by
        intro b hb
        obtain ⟨e, mvb, rv', rm', c1', hMb, -, -, -, -⟩ := HC' b hb al be 0 hαβ
        exact ⟨e, mvb, hMb⟩
      obtain ⟨vm', mvm', hmmrec, hdir, hshape⟩ :=
        mmLoop_shape callM g s false l' (toEVal m) (some a) Htot'
      have hdir' : vm' ≤ toEVal m := by simpa using hdir
      have hfin : ∃ q, vm' = toEVal q := by
        rcases hshape with h | h
        · exact ⟨m, h⟩
        · exact h
      refine ⟨vm', mvm', rv, some a, c1, ?_, hceq, le_trans hdir' hvm_m.le,
        Or.inr hfin, fun _ => hfin, fun _ => ⟨hrvα, le_trans hdir' hm_rv⟩,
        ?_, ?_⟩
      · rw [hmmstep, inf_eq_right.mpr hvm_m.le, if_pos hvm_m]
        exact hmmrec
      · intro h _
        exact absurd (lt_of_lt_of_le h (le_trans hdir' hCse)) (lt_irrefl al)
      · intro h
        exact absurd (lt_of_le_of_lt (le_trans h (le_trans hdir' hCse)) hαβ)
          (lt_irrefl be)
    · -- the child's minimax value is above alpha: no cutoff, keep folding
      have hrvα : al < rv := by
        rcases le_or_lt (be ⊓ v) (toEVal m) with hA | hAB
        · exact lt_of_lt_of_le hinf (hhigh hA).1
        · rw [hex hαm hAB]
          exact hαm
      have hcstep : cMinLoop callC g s (a :: l') v mv al (be ⊓ v) ctr =
          cMinLoop callC g s l' (v ⊓ rv) (if rv < v then some a else mv)
            al (be ⊓ (v ⊓ rv)) c1 := by
        rcases lt_or_le rv v with h | h
        · rw [cMinLoop_cons callC g s a l' v mv al (be ⊓ v) ctr rv rm c1 hCc,
            if_pos h, if_neg (not_le.mpr hrvα), if_pos h, inf_assoc,
            inf_eq_right.mpr h.le]
        · rw [cMinLoop_cons callC g s a l' v mv al (be ⊓ v) ctr rv rm c1 hCc,
            if_neg (not_lt.mpr h), if_neg (not_le.mpr hαv),
            if_neg (not_lt.mpr h), inf_eq_left.mpr h]
      have key : al < v ⊓ rv → al < vm ⊓ toEVal m →
          (be ≤ vm ⊓ toEVal m → be ≤ v ⊓ rv ∧ v ⊓ rv ≤ vm ⊓ toEVal m) →
          (vm ⊓ toEVal m < be → v ⊓ rv = vm ⊓ toEVal m) →
          ∃ vm' mvm' v' mv' ctr',
            mmLoop callM g s false (a :: l') vm mvm = some (vm', mvm') ∧
            cMinLoop callC g s (a :: l') v mv al (be ⊓ v) ctr =
              some (v', mv', ctr') ∧
            vm' ≤ vm ∧
            (vm' = vm ∨ ∃ q, vm' = toEVal q) ∧
            (a :: l' ≠ [] → ∃ q, vm' = toEVal q) ∧
            (vm' ≤ al → v' ≤ al ∧ vm' ≤ v') ∧
            (al < vm' → vm' < be → v' = vm') ∧
            (be ≤ vm' → be ≤ v' ∧ v' ≤ vm') := by
        intro hαv1 hαvm1 hI1' hI2'
        obtain ⟨vm', mvm', v', mv', ctr', hmmrec, hcrec, hge, hshape, -,
          hF1, hF2, hF3⟩ :=
          ih HC' (vm ⊓ toEVal m) (v ⊓ rv) (if toEVal m < vm then some a else mvm)
            (if rv < v then some a else mv) c1 hαv1 hαvm1 hI1' hI2'
        obtain ⟨q', hq'⟩ := hvm1_fin
        have hfin : ∃ q, vm' = toEVal q := by
          rcases hshape with h | h
          · exact ⟨q', h.trans hq'⟩
          · exact h
        refine ⟨vm', mvm', v', mv', ctr', ?_, ?_, le_trans hge inf_le_left,
          Or.inr hfin, fun _ => hfin, hF1, hF2, hF3⟩
        · rw [hmmstep]
          exact hmmrec
        · rw [hcstep]
          exact hcrec
      rcases le_or_lt (be ⊓ v) (toEVal m) with hA | hAB
      · -- fail high for this child
        obtain ⟨hrv_ge, hrv_le_m⟩ := hhigh hA
        refine key (lt_inf_iff.mpr ⟨hαv, hrvα⟩) (lt_inf_iff.mpr ⟨hαvm, hαm⟩)
          ?_ ?_
        · intro h
          have hvmbe : be ≤ vm := le_trans h inf_le_left
          obtain ⟨hbev, hv_vm⟩ := hI1 hvmbe
          have hrvbe : be ≤ rv := by
            rw [inf_eq_left.mpr hbev] at hrv_ge
            exact hrv_ge
          exact ⟨le_inf hbev hrvbe,
            le_inf (le_trans inf_le_left hv_vm) (le_trans inf_le_right hrv_le_m)⟩
        · intro h
          rcases lt_or_le vm be with hvmbe | hvmbe
          · have hveq := hI2 hvmbe
            have hbev : be ⊓ v = v := inf_eq_right.mpr (le_of_lt (hveq ▸ hvmbe))
            rw [hbev] at hA hrv_ge
            have h1 : v ⊓ rv = v := inf_eq_left.mpr hrv_ge
            have h2 : vm ⊓ toEVal m = vm := inf_eq_left.mpr (hveq ▸ hA)
            rw [h1, h2, hveq]
          · obtain ⟨hbev, -⟩ := hI1 hvmbe
            rw [inf_eq_left.mpr hbev] at hA
            exact absurd (le_inf hvmbe hA) (not_le.mpr h)
      · -- exact window for this child
        have hrveq : rv = toEVal m := hex hαm hAB
        have hm_v : toEVal m < v := lt_of_lt_of_le hAB inf_le_right
        have hm_be : toEVal m < be := lt_of_lt_of_le hAB inf_le_left
        have hm_vm : toEVal m < vm := by
          rcases lt_or_le vm be with h | h
          · exact (hI2 h) ▸ hm_v
          · exact lt_of_lt_of_le hm_be h
        have hinfv : v ⊓ rv = toEVal m := by
          rw [hrveq, inf_eq_right.mpr hm_v.le]
        have hinfvm : vm ⊓ toEVal m = toEVal m := inf_eq_right.mpr hm_vm.le
        refine key (by rw [hinfv]; exact hαm) (by rw [hinfvm]; exact hαm) ?_ ?_
        · intro h
          rw [hinfvm] at h
          exact absurd h (not_le.mpr hm_be)
        · intro _
          rw [hinfv, hinfvm]

/-- Window correctness of the contest searcher against unpruned
minimax, by induction on the remaining depth.  The hypotheses hold on
an invariant `P` closed under successors (the reachable states): the
evaluation is total (`Hev`), the action list stored on the state
matches the rules engine (`Hact`), and non-terminal states have legal
actions (`Hc`).  With zero noise, minimax always returns a finite
value `m`, the contest searcher always returns normally, and the
contest value fails soft: it equals `m` strictly inside the
`(alpha, beta)` window and is on the correct side of the window edge
otherwise. -/
theorem cMM_minimax_rel (g : Game (ShobuLike A) A) (player C : Nat)
    (P : ShobuLike A → Prop)
    (Hclosed : ∀ s a, P s → P (g.result s a))
    (Hev : ∀ s, P s → ∃ e, cEval player C s = some e)
    (Hact : ∀ s, P s → s.actions = g.actions s)
    (Hc : ∀ s, P s → g.is_terminal s = false → g.actions s ≠ []) :
    ∀ (fuel : Nat) (isMax : Bool) (s : ShobuLike A) (al be : EVal) (ctr : Nat),
      P s → al < be →
      ∃ m mvm v mv ctr',
        mmMM g (cEval player C) fuel isMax s = some (toEVal m, mvm) ∧
        cMM g player C (fun _ => 0) fuel isMax s al be ctr = some (v, mv, ctr') ∧
        (toEVal m ≤ al → v ≤ al ∧ toEVal m ≤ v) ∧
        (be ≤ toEVal m → be ≤ v ∧ v ≤ toEVal m) ∧
        (al < toEVal m → toEVal m < be → v = toEVal m) := by
  intro fuel
  induction fuel with
  | zero =>
    intro isMax s al be ctr hs _
    obtain ⟨e, he⟩ := Hev s hs
    refine ⟨e, none, toEVal e, none, ctr + 1, ?_, ?_,
      fun h => ⟨h, le_refl _⟩, fun h => ⟨h, le_refl _⟩, fun _ _ => rfl⟩
    · rw [mmMM_zero, tLeaf_some (cEval player C) s e he]
    · rw [cMM_zero, cLeaf_zero_noise player C s ctr e he]
  | succ f ihf =>
    intro isMax s al be ctr hs hαβ
    by_cases hterm : g.is_terminal s = true
    · obtain ⟨e, he⟩ := Hev s hs
      refine ⟨e, none, toEVal e, none, ctr + 1, ?_, ?_,
        fun h => ⟨h, le_refl _⟩, fun h => ⟨h, le_refl _⟩, fun _ _ => rfl⟩
      · simp only [mmMM_succ]
        rw [if_pos hterm, tLeaf_some (cEval player C) s e he]
      · simp only [cMM_succ]
        rw [if_pos hterm, cLeaf_zero_noise player C s ctr e he]
    · have hterm' : g.is_terminal s = false := by
        cases h : g.is_terminal s
        · rfl
        · exact absurd h hterm
      have hne : g.actions s ≠ [] := Hc s hs hterm'
      have HC : ∀ a ∈ g.actions s, ∀ (a' b' : EVal) (c0 : Nat), a' < b' →
          ∃ m mvm rv rm c1,
            mmMM g (cEval player C) f (!isMax) (g.result s a) = some (toEVal m, mvm) ∧
            cMM g player C (fun _ => 0) f (!isMax) (g.result s a) a' b' c0 =
              some (rv, rm, c1) ∧
            (toEVal m ≤ a' → rv ≤ a' ∧ toEVal m ≤ rv) ∧
            (b' ≤ toEVal m → b' ≤ rv ∧ rv ≤ toEVal m) ∧
            (a' < toEVal m → toEVal m < b' → rv = toEVal m) := by
        intro a _ a' b' c0 hab
        exact ihf (!isMax) (g.result s a) a' b' c0 (Hclosed s a hs) hab
      cases isMax with
      | true =>
        obtain ⟨vm', mvm', v', mv', ctr', hmm, hc, -, -, hfin, hF1, hF2, hF3⟩ :=
          maxFold_rel g s (fun s' => mmMM g (cEval player C) f false s')
            (fun s' a' b' c' => cMM g player C (fun _ => 0) f false s' a' b' c')
            al be hαβ (g.actions s) HC ⊥ ⊥ none none ctr
            (lt_of_le_of_lt bot_le hαβ) (lt_of_le_of_lt bot_le hαβ)
            (fun h => ⟨h, le_refl _⟩) (fun _ => rfl)
        obtain ⟨q, hq⟩ := hfin hne
        rw [hq] at hmm hF1 hF2 hF3
        rw [sup_bot_eq] at hc
        refine ⟨q, mvm', v', mv', ctr', ?_, ?_, hF1, hF3, hF2⟩
        · simp only [mmMM_succ]
          rw [if_neg hterm, if_pos True.intro]
          exact hmm
        · simp only [cMM_succ]
          rw [if_neg hterm, if_pos True.intro, Hact s hs]
          exact hc
      | false =>
        have htopα : al < evTop := by
          rw [evTop_eq_top]
          exact lt_of_lt_of_le hαβ le_top
        obtain ⟨vm', mvm', v', mv', ctr', hmm, hc, -, -, hfin, hF1, hF2, hF3⟩ :=
          minFold_rel g s (fun s' => mmMM g (cEval player C) f true s')
            (fun s' a' b' c' => cMM g player C (fun _ => 0) f true s' a' b' c')
            al be hαβ (g.actions s) HC evTop evTop none none ctr
            htopα htopα (fun h => ⟨h, le_refl _⟩) (fun _ => rfl)
        obtain ⟨q, hq⟩ := hfin hne
        rw [hq] at hmm hF1 hF2 hF3
        rw [show be ⊓ evTop = be from by rw [evTop_eq_top, inf_top_eq]] at hc
        refine ⟨q, mvm', v', mv', ctr', ?_, ?_, hF1, hF3, hF2⟩
        · simp only [mmMM_succ]
          rw [if_neg hterm, if_neg Bool.false_ne_true]
          exact hmm
        · simp only [cMM_succ]
          rw [if_neg hterm, if_neg Bool.false_ne_true, Hact s hs]
          exact hc

/-- At the root window `(-inf, +inf)` the contest max-value loop and
the unpruned minimax loop stay in lock-step: every child is evaluated
either exactly (and both loops adopt it) or fails low (and neither loop
does), so value and chosen action coincide after every prefix. -/
theorem rootFold_rel (g : Game (ShobuLike A) A) (s : ShobuLike A)
    (callM : ShobuLike A → Option (EVal × Option A))
    (callC : ShobuLike A → EVal → EVal → Nat → Option (EVal × Option A × Nat)) :
    ∀ (l : List A),
    (∀ a ∈ l, ∀ (a' b' : EVal) (c0 : Nat), a' < b' →
      ∃ m mvm rv rm c1,
        callM (g.result s a) = some (toEVal m, mvm) ∧
        callC (g.result s a) a' b' c0 = some (rv, rm, c1) ∧
        (toEVal m ≤ a' → rv ≤ a' ∧ toEVal m ≤ rv) ∧
        (b' ≤ toEVal m → b' ≤ rv ∧ rv ≤ toEVal m) ∧
        (a' < toEVal m → toEVal m < b' → rv = toEVal m)) →
    ∀ (v : EVal) (mv : Option A) (ctr : Nat),
      v < ⊤ →
      ∃ w mw ctr',
        mmLoop callM g s true l v mv = some (w, mw) ∧
        cMaxLoop callC g s l v mv (⊥ ⊔ v) ⊤ ctr = some (w, mw, ctr') := by
  intro l
  induction l with
  | nil =>
    intro _ v mv ctr _
    exact ⟨v, mv, ctr, rfl, rfl⟩
  | cons a l' ih =>
    intro HC v mv ctr hv_top
    have HC' := fun b hb => HC b (List.mem_cons_of_mem a hb)
    have hsup : (⊥ : EVal) ⊔ v < ⊤ := by
      rw [bot_sup_eq]
      exact hv_top
    obtain ⟨m, mvma, rv, rm, c1, hM, hCc, hlow, hhigh, hex⟩ :=
      HC a (List.mem_cons_self a l') (⊥ ⊔ v) ⊤ ctr hsup
    have hm_top : toEVal m < ⊤ := toEVal_lt_top m
    rcases le_or_lt (toEVal m) (⊥ ⊔ v) with hA | hAB
    · -- fail low: neither loop updates
      obtain ⟨hrv_le, -⟩ := hlow hA
      rw [bot_sup_eq] at hA hrv_le
      obtain ⟨w, mw, ctr', hmm', hc'⟩ := ih HC' v mv c1 hv_top
      refine ⟨w, mw, ctr', ?_, ?_⟩
      · rw [mmLoop_true_cons callM g s a l' v mv (toEVal m) mvma hM,
          if_neg (not_lt.mpr hA)]
        exact hmm'
      · rw [cMaxLoop_cons callC g s a l' v mv (⊥ ⊔ v) ⊤ ctr rv rm c1 hCc,
          if_neg (not_lt.mpr hrv_le), if_neg (not_le.mpr hv_top)]
        exact hc'
    · -- exact window: both loops adopt the child's value and action
      have hrveq : rv = toEVal m := hex hAB hm_top
      have hv_m : v < toEVal m := by
        rw [bot_sup_eq] at hAB
        exact hAB
      have hv_rv : v < rv := hrveq.symm ▸ hv_m
      have hrv_top : rv < ⊤ := hrveq.symm ▸ hm_top
      obtain ⟨w, mw, ctr', hmm', hc'⟩ := ih HC' (toEVal m) (some a) c1 hm_top
      refine ⟨w, mw, ctr', ?_, ?_⟩
      · rw [mmLoop_true_cons callM g s a l' v mv (toEVal m) mvma hM, if_pos hv_m]
        exact hmm'
      · rw [cMaxLoop_cons callC g s a l' v mv (⊥ ⊔ v) ⊤ ctr rv rm c1 hCc,
          if_pos hv_rv, if_neg (not_le.mpr hrv_top), hrveq]
        rw [bot_sup_eq] at hc' ⊢
        rw [sup_eq_right.mpr hv_m.le]
        exact hc'

/-- The root values and root actions of the contest searcher (zero
noise) and of unpruned minimax coincide, at every depth. -/
theorem cMM_minimax_root (g : Game (ShobuLike A) A) (player C : Nat)
    (P : ShobuLike A → Prop)
    (Hclosed : ∀ s a, P s → P (g.result s a))
    (Hev : ∀ s, P s → ∃ e, cEval player C s = some e)
    (Hact : ∀ s, P s → s.actions = g.actions s)
    (Hc : ∀ s, P s → g.is_terminal s = false → g.actions s ≠ [])
    (fuel : Nat) (s : ShobuLike A) (hs : P s) (ctr : Nat) :
    ∃ w mw ctr',
      mmMM g (cEval player C) fuel true s = some (w, mw) ∧
      cMM g player C (fun _ => 0) fuel true s ⊥ evTop ctr = some (w, mw, ctr') := by
  cases fuel with
  | zero =>
    obtain ⟨e, he⟩ := Hev s hs
    refine ⟨toEVal e, none, ctr + 1, ?_, ?_⟩
    · rw [mmMM_zero, tLeaf_some (cEval player C) s e he]
    · rw [cMM_zero, cLeaf_zero_noise player C s ctr e he]
  | succ f =>
    by_cases hterm : g.is_terminal s = true
    · obtain ⟨e, he⟩ := Hev s hs
      refine ⟨toEVal e, none, ctr + 1, ?_, ?_⟩
      · simp only [mmMM_succ]
        rw [if_pos hterm, tLeaf_some (cEval player C) s e he]
      · simp only [cMM_succ]
        rw [if_pos hterm, cLeaf_zero_noise player C s ctr e he]
    · have HC : ∀ a ∈ g.actions s, ∀ (a' b' : EVal) (c0 : Nat), a' < b' →
          ∃ m mvm rv rm c1,
            mmMM g (cEval player C) f false (g.result s a) = some (toEVal m, mvm) ∧
            cMM g player C (fun _ => 0) f false (g.result s a) a' b' c0 =
              some (rv, rm, c1) ∧
            (toEVal m ≤ a' → rv ≤ a' ∧ toEVal m ≤ rv) ∧
            (b' ≤ toEVal m → b' ≤ rv ∧ rv ≤ toEVal m) ∧
            (a' < toEVal m → toEVal m < b' → rv = toEVal m) := by
        intro a _ a' b' c0 hab
        exact cMM_minimax_rel g player C P Hclosed Hev Hact Hc f false
          (g.result s a) a' b' c0 (Hclosed s a hs) hab
      obtain ⟨w, mw, ctr', hmm, hc⟩ :=
        rootFold_rel g s (fun s' => mmMM g (cEval player C) f false s')
          (fun s' a' b' c' => cMM g player C (fun _ => 0) f false s' a' b' c')
          (g.actions s) HC ⊥ none ctr
          (lt_of_le_of_lt bot_le (toEVal_lt_top 0))
      refine ⟨w, mw, ctr', ?_, ?_⟩
      · simp only [mmMM_succ]
        rw [if_neg hterm, if_pos True.intro]
        exact hmm
      · simp only [cMM_succ]
        rw [if_neg hterm, if_pos True.intro, Hact s hs, evTop_eq_top]
        rw [bot_sup_eq] at hc
        exact hc

/-- Pruning correctness of the contest implementation: with the
multiplicative evaluation noise disabled, `AI.alpha_beta_search`
returns exactly the action chosen by unpruned full minimax over the
same depth, the same evaluation and the same tie-break — on any set of
states closed under successors on which the evaluation is total, the
stored action list matches the rules engine, and non-terminal states
have legal actions.  (The template implementation provably violates
this; see `claim1_alphabeta_diverges_from_minimax`.) -/
theorem contest_search_equals_minimax (g : Game (ShobuLike A) A)
    (player C : Nat) (P : ShobuLike A → Prop)
    (Hclosed : ∀ s a, P s → P (g.result s a))
    (Hev : ∀ s, P s → ∃ e, cEval player C s = some e)
    (Hact : ∀ s, P s → s.actions = g.actions s)
    (Hc : ∀ s, P s → g.is_terminal s = false → g.actions s ≠ [])
    (s : ShobuLike A) (hs : P s) :
    cSearch g player C (fun _ => 0) s =
      minimaxSearch g (cEval player C) contestMaxDepth s := by
  obtain ⟨w, mw, ctr', hmm, hc⟩ :=
    cMM_minimax_root g player C P Hclosed Hev Hact Hc contestMaxDepth s hs 0
  rw [cSearch, minimaxSearch, hmm, hc]
  rfl

/-- The hypotheses of `contest_search_equals_minimax` are satisfiable:
on the concrete game `cg` (whose three states have well-formed boards
and consistent action lists) the contest searcher with zero noise
agrees with unpruned minimax at the root `s0`. -/
theorem contest_search_equals_minimax_inst :
    cSearch cg 0 2 (fun _ => 0) s0 =
      minimaxSearch cg (cEval 0 2) contestMaxDepth s0 := by
  refine contest_search_equals_minimax cg 0 2
    (fun s => s = s0 ∨ s = sBad ∨ s = sGood) ?_ ?_ ?_ ?_ s0 (Or.inl rfl)
  · intro s a _
    by_cases h : a = 0 <;> simp [cg, h]
  · intro s hs
    refine ⟨1, ?_⟩
    rcases hs with h | h | h <;> subst h <;>
      simp [cEval, s0, sBad, sGood, pyMin] <;> norm_num
  · intro s _
    rfl
  · intro s hs hterm
    rcases hs with h | h | h <;> subst h
    · decide
    · exact absurd hterm (by decide)
    · exact absurd hterm (by decide)

/-- C5 counterexample: the claim says calling the UCT searcher with a
terminal root does not crash.  With the all-terminal game `cg5` the
call raises: the root's child mapping is empty, so after the loop
`max(root.children, key=...)` raises `ValueError`. -/
theorem claim5_uct_terminal_root_counterexample :
    uct cg5 (fun _ _ => 0) (fun _ => 0) (fun _ _ => 0) 1 0 =
      .error "ValueError: max() arg is an empty sequence" := by
  rfl

/-- C7 counterexample: the claim says that after `N` iterations the
root children's visit counts sum to `N` minus the number of iterations
whose expansion hit an already-terminal leaf.  Running 2 iterations on
`cg7` (the loop exactly as `uct` invokes it for budget 2), the second
iteration's expansion hits the terminal leaf (count 1), yet the sum is
`2`, not `2 - 1`. -/
theorem claim7_visit_count_counterexample :
    (uctLoop cg7 (fun _ _ => 0) (fun _ => 0) (fun _ _ => 0) 4 2 0
        (initTree cg7 0)).map (fun r => (sumRootN r.1, r.2)) = some (2, 1) ∧
    (2 : Nat) ≠ 2 - 1 :=
  ⟨by decide, by decide⟩

end S2P
